import Mathlib

/-!
Verification of the `real_ranges` continuous-range library (`ranges.py`).

The domain of endpoint values is modelled as the rationals extended with the
two unbounded sentinels `INF` and `-INF` from the library's `bases` module:
the spec describes them as ordered below / above every domain value and equal
only to themselves.  Machine objects that the Python code compares with `<`,
`>` and `==` become the inductive type `Val`; a bare domain value is a
rational embedded by `Val.fin`.

Ranges are the four-field records built by `Range.__init__` (ranges.py line
44): `start`, `end`, `start_inc`, `end_inc` with no validation.  All the
operator bodies below are direct translations of the corresponding methods of
`ranges.py`; definitions whose Python source is not in the repository excerpt
(the `EMPTY_RANGE` sentinel, the `RangeSet` constructor and its operators,
and the `None`-to-sentinel endpoint conversion done by the metaclass) are
modelled from the spec and marked as such in their doc comments.
-/

/-- Endpoint values: the unbounded-below sentinel, a finite rational domain
value, or the unbounded-above sentinel. -/
inductive Val where
  | ninf : Val
  | fin (q : ℚ) : Val
  | inf : Val
deriving DecidableEq, Repr

/-- Strict order on endpoint values: `-INF` below every finite value, `INF`
above every finite value, sentinels not below themselves (they are equal
only to themselves per the spec's sentinel contract). -/
def valLt : Val → Val → Bool
  | .ninf, .ninf => false
  | .ninf, _ => true
  | .fin _, .ninf => false
  | .fin a, .fin b => decide (a < b)
  | .fin _, .inf => true
  | .inf, _ => false

/-- Test for a finite (bare domain) value. -/
def Val.isFin : Val → Bool
  | .fin _ => true
  | _ => false

/-- Python's ordering of booleans: `False < True`. -/
def boolLt (a b : Bool) : Bool := !a && b

/-- A continuous range: translation of class `Range` (ranges.py line 41).
`end` is a Lean keyword, hence the field name `end_`. -/
structure Range where
  start : Val
  end_ : Val
  start_inc : Bool
  end_inc : Bool
deriving DecidableEq, Repr

/-- The comparison-key order of `Range.__lt__` for Range operands
(ranges.py line 68): lexicographic comparison of the tuples
`(start, not start_inc, end, end_inc)`. -/
def Range.cmpLt (r s : Range) : Bool :=
  valLt r.start s.start ||
    (r.start == s.start &&
      (boolLt (!r.start_inc) (!s.start_inc) ||
        ((!r.start_inc) == (!s.start_inc) &&
          (valLt r.end_ s.end_ ||
            (r.end_ == s.end_ && boolLt r.end_inc s.end_inc)))))

/-- Scalar branch of `Range.__lt__` (ranges.py line 70): the range is below
the value `v` iff `end < v`, or the end is exclusive, equals `v` and is not
the `INF` sentinel. -/
def Range.ltVal (r : Range) (v : Val) : Bool :=
  valLt r.end_ v || (!r.end_inc && r.end_ == v && !(r.end_ == Val.inf))

/-- Scalar branch of `Range.__gt__` (ranges.py line 76). -/
def Range.gtVal (r : Range) (v : Val) : Bool :=
  valLt v r.start || (!r.start_inc && r.start == v && !(r.start == Val.ninf))

/-- Translation of `Range.__contains__` (ranges.py line 84). -/
def Range.contains (r : Range) (v : Val) : Bool :=
  (valLt r.start v && valLt v r.end_) ||
    (r.start == v && r.start_inc) || (r.end_ == v && r.end_inc)

/-- Translation of `Range.__bool__` (ranges.py line 90): every Range is
truthy, unconditionally. -/
def Range.bool_ (_ : Range) : Bool := true

/-- The `ensure_order` decorator (ranges.py line 26): if `other < self` under
the comparison-key order, redispatch the operation with the operands
swapped. -/
def ensureOrder {α : Type} (f : Range → Range → α) (a b : Range) : α :=
  if Range.cmpLt b a then f b a else f a b

/-- Body of `Range.will_join` (ranges.py line 95), for an ordered pair. -/
def will_joinRaw (s o : Range) : Bool :=
  s.contains o.start || o.contains s.end_

/-- Decorated `Range.will_join`: true iff the union of the two ranges is a
single contiguous range. -/
def Range.will_join (a b : Range) : Bool := ensureOrder will_joinRaw a b

/-- Body of `Range.continues` (ranges.py line 100), for an ordered pair. -/
def continuesRaw (s o : Range) : Bool :=
  (s.end_inc != o.start_inc) && (s.end_ == o.start)

/-- Decorated `Range.continues`. -/
def Range.continues (a b : Range) : Bool := ensureOrder continuesRaw a b

/-- Body of `Range.intersects` (ranges.py line 107): it calls the decorated
`will_join` and `continues` on its (already ordered) arguments. -/
def intersectsRaw (s o : Range) : Bool :=
  Range.will_join s o && !(Range.continues s o)

/-- Decorated `Range.intersects`. -/
def Range.intersects (a b : Range) : Bool := ensureOrder intersectsRaw a b

/-- Result of a Range algebra operation: the distinguished empty range, a
single Range, or a RangeSet given by its member list.  `EMPTY_RANGE` and the
RangeSet aggregate live in the modules `bases` / `range_set` that are not in
the repository excerpt.  Modelled from the spec: the empty range is a
distinguished value distinct from every Range, and a RangeSet is an ordered
sequence of Ranges; equality of results compares these structurally. -/
inductive RResult where
  | empty : RResult
  | rng (r : Range) : RResult
  | rset (rs : List Range) : RResult
deriving DecidableEq, Repr

/-- Stable insertion of a range into a list sorted by the comparison-key
order (Python's `sorted` is stable and ascending under `__lt__`). -/
def insortRange (r : Range) : List Range → List Range
  | [] => [r]
  | a :: rest => if Range.cmpLt r a then r :: a :: rest else a :: insortRange r rest

/-- Sort a list of ranges by the comparison-key order. -/
def sortRanges (rs : List Range) : List Range :=
  rs.foldl (fun acc r => insortRange r acc) []

/-- Body of `Range.__or__` restricted to joinable inputs (ranges.py lines
125 and 131), producing the single merged Range: used by the RangeSet
canonicalization fold, which only merges ranges that `will_join`. -/
def mergeJoinedRaw (s o : Range) : Range :=
  if o.ltVal s.end_ then s else ⟨s.start, o.end_, s.start_inc, o.end_inc⟩

/-- Decorated single-Range union of two joinable ranges. -/
def Range.mergeJoined (a b : Range) : Range := ensureOrder mergeJoinedRaw a b

/-- One step of the canonicalization fold.  The accumulator is kept in
reverse order, so its head is the last accumulated range. -/
def canonFold (acc : List Range) (r : Range) : List Range :=
  match acc with
  | [] => [r]
  | last :: rest =>
    if Range.will_join last r then Range.mergeJoined last r :: rest
    else r :: last :: rest

/-- Canonicalization pass over an already sorted list: fold left-to-right,
merging each new range into the last accumulated range whenever they
`will_join`, else appending.  Modelled from the spec (section 4.2,
Construction); `range_set.py` is not in the repository excerpt. -/
def canonList (rs : List Range) : List Range :=
  (rs.foldl canonFold []).reverse

/-- The `RangeSet` constructor applied to finitely many ranges: sort by
comparison key, then canonicalize.  Modelled from the spec (section 4.2). -/
def rangeSetMk (rs : List Range) : List Range :=
  canonList (sortRanges rs)

/-- Translation of `Range.__and__` (ranges.py line 111), body for an ordered
pair: the scalar comparison `self.end > other` resolves, by Python's
reflected-operand protocol and the spec's sentinel contract, to the scalar
branch of `Range.__lt__` on `other` against the value `self.end`. -/
def andRaw (s o : Range) : RResult :=
  if o.ltVal s.end_ then .rng o
  else if !(Range.intersects s o) then .empty
  else .rng ⟨o.start, s.end_, o.start_inc, s.end_inc⟩

/-- Decorated `Range.__and__`. -/
def andOp (a b : Range) : RResult := ensureOrder andRaw a b

/-- Translation of `Range.__or__` (ranges.py line 122), body for an ordered
pair. -/
def orRaw (s o : Range) : RResult :=
  if o.ltVal s.end_ then .rng s
  else if !(Range.will_join s o) then .rset (rangeSetMk [s, o])
  else .rng ⟨s.start, o.end_, s.start_inc, o.end_inc⟩

/-- Decorated `Range.__or__`. -/
def orOp (a b : Range) : RResult := ensureOrder orRaw a b

/-- Tuple comparison `self.upper < other.upper` of `Range.__xor__`
(ranges.py line 154): lexicographic on `(end, end_inc)`. -/
def upperLt (s o : Range) : Bool :=
  valLt s.end_ o.end_ || (s.end_ == o.end_ && boolLt s.end_inc o.end_inc)

/-- Tuple equality `self.lower == other.lower` (ranges.py line 147). -/
def lowerEq (s o : Range) : Bool :=
  s.start == o.start && s.start_inc == o.start_inc

/-- Tuple equality `self.upper == other.upper` (ranges.py line 150). -/
def upperEq (s o : Range) : Bool :=
  s.end_ == o.end_ && s.end_inc == o.end_inc

/-- Key equality of `Range.__eq__` (ranges.py line 78): equality of the
tuples `(start, not start_inc, end, end_inc)`. -/
def keyEq (a b : Range) : Bool :=
  a.start == b.start && (!a.start_inc) == (!b.start_inc) &&
    a.end_ == b.end_ && a.end_inc == b.end_inc

/-- Translation of `Range.__xor__` (ranges.py line 137), body for an ordered
pair. -/
def xorRaw (s o : Range) : RResult :=
  if !(Range.intersects s o) then orOp s o
  else if keyEq s o then .empty
  else if lowerEq s o then .rng ⟨s.end_, o.end_, !s.end_inc, o.end_inc⟩
  else if upperEq s o then .rng ⟨s.start, o.start, s.start_inc, !o.start_inc⟩
  else
    if upperLt s o then
      .rset (rangeSetMk [⟨s.start, o.start, s.start_inc, !o.start_inc⟩,
                         ⟨s.end_, o.end_, !s.end_inc, o.end_inc⟩])
    else
      .rset (rangeSetMk [⟨s.start, o.start, s.start_inc, !o.start_inc⟩,
                         ⟨o.end_, s.end_, !o.end_inc, s.end_inc⟩])

/-- Decorated `Range.__xor__`. -/
def xorOp (a b : Range) : RResult := ensureOrder xorRaw a b

/-- Translation of `BIG_RANGE = Range()` (ranges.py line 179).  Modelled
from the spec for the endpoint conversion: the metaclass (module `meta`, not
in the repository excerpt) maps the omitted endpoints to the unbounded
sentinels, while the inclusivity flags keep the constructor defaults
`start_inc=True`, `end_inc=False`; this is the universal range covering all
finite values, and it reproduces the spec's concrete complement example
`~Range(2,7) = {Range(-inf,2), Range(7,inf)}` with default flags. -/
def BIG_RANGE : Range := ⟨.ninf, .inf, true, false⟩

/-- Translation of `Range.__invert__` (ranges.py line 159):
`BIG_RANGE ^ self`. -/
def Range.invert (a : Range) : RResult := xorOp BIG_RANGE a

/-- Degradation rule of the spec (section 4.2): an operator result with zero
members is the empty range, one member is that bare Range, two or more a
RangeSet.  Modelled from the spec. -/
def degrade : List Range → RResult
  | [] => .empty
  | [r] => .rng r
  | rs => .rset rs

/-- A range is proper when it denotes a nonempty set of finite domain
values: its start lies strictly below its end, or the two coincide at a
finite value with both bounds inclusive (a one-point range).  The
constructor performs no such validation; this predicate only delimits the
well-formed inputs in the amended claims. -/
def Range.proper (r : Range) : Bool :=
  valLt r.start r.end_ || (r.start == r.end_ && r.start_inc && r.end_inc && r.start.isFin)

/-- Lexicographic order on lower bounds `(start, not start_inc)`: at equal
start values an inclusive lower bound sorts first. -/
def lowerLt (s o : Range) : Bool :=
  valLt s.start o.start || (s.start == o.start && s.start_inc && !o.start_inc)

/-- The smaller of the two lower bounds `(start, start_inc)` under the
lower-bound order: the bound supplying the union's start. -/
def lowerMin (a b : Range) : Val × Bool :=
  if lowerLt b a then (b.start, b.start_inc) else (a.start, a.start_inc)

/-- The larger of the two lower bounds: the bound supplying the
intersection's start. -/
def lowerMax (a b : Range) : Val × Bool :=
  if lowerLt a b then (b.start, b.start_inc) else (a.start, a.start_inc)

/-- The larger of the two upper bounds `(end, end_inc)` under the
upper-bound order `upperLt`: the bound supplying the union's end. -/
def upperMax (a b : Range) : Val × Bool :=
  if upperLt a b then (b.end_, b.end_inc) else (a.end_, a.end_inc)

/-- The smaller of the two upper bounds: the bound supplying the
intersection's end. -/
def upperMin (a b : Range) : Val × Bool :=
  if upperLt b a then (b.end_, b.end_inc) else (a.end_, a.end_inc)

/-- The union described by the spec: from `min(start)` to `max(end)`, each
bound's inclusivity taken from the range supplying that extreme bound (at a
tie of bound values the more inclusive flag is the supplier). -/
def specUnion (a b : Range) : Range :=
  ⟨(lowerMin a b).1, (upperMax a b).1, (lowerMin a b).2, (upperMax a b).2⟩

/-- The intersection described by the spec: from `max(A.start, B.start)` to
`min(A.end, B.end)`, each bound's inclusivity taken from the range supplying
that bound (at a tie of bound values the more exclusive flag is the
supplier). -/
def specInter (a b : Range) : Range :=
  ⟨(lowerMax a b).1, (upperMin a b).1, (lowerMax a b).2, (upperMin a b).2⟩

/-- Left fragment of the symmetric difference described by the spec: from
the earlier start to the later start, keeping the earlier range's
start-inclusivity and inverting the later range's. -/
def specXorLeft (a b : Range) : Range :=
  if valLt a.start b.start then ⟨a.start, b.start, a.start_inc, !b.start_inc⟩
  else ⟨b.start, a.start, b.start_inc, !a.start_inc⟩

/-- Right fragment of the symmetric difference described by the spec: from
the earlier end to the later end, inverting the earlier-ending range's
end-inclusivity and keeping the later-ending range's. -/
def specXorRight (a b : Range) : Range :=
  if valLt a.end_ b.end_ then ⟨a.end_, b.end_, !a.end_inc, b.end_inc⟩
  else ⟨b.end_, a.end_, !b.end_inc, a.end_inc⟩

/-- Operand kinds an operator can receive besides being called on two
Ranges: a Range, a bare domain value, or a foreign object that is neither a
Range, nor a RangeSet, nor a domain value (it has no `_cmp` attribute and no
order relation with domain values). -/
inductive Operand where
  | rng (r : Range) : Operand
  | scalar (q : ℚ) : Operand
  | foreign : Operand
deriving DecidableEq, Repr

/-- Outcome of a Python dunder-operator call: a value, the `NotImplemented`
signal that defers to the reflected-operand protocol, or a raised
exception. -/
inductive PyResult (α : Type) where
  | ok (a : α) : PyResult α
  | notImplemented : PyResult α
  | error : PyResult α
deriving DecidableEq

/-- Member-wise intersection of a RangeSet with a Range, dropping empty
results and re-canonicalizing.  Modelled from the spec (section 4.2, Binary
operators); `range_set.py` is not in the repository excerpt. -/
def collectAnd (ms : List Range) (r : Range) : List Range :=
  ms.foldr (fun m acc =>
    match andOp m r with
    | .rng x => x :: acc
    | _ => acc) []

/-- RangeSet-with-Range intersection with the degradation rule applied.
Modelled from the spec (section 4.2). -/
def andSetRange (ms : List Range) (r : Range) : RResult :=
  degrade (rangeSetMk (collectAnd ms r))

/-- Translation of `Range.__sub__` (ranges.py line 162): `~other & self`.
The complement of `other` may be the empty range, a Range, or a RangeSet;
the intersection of the empty range with anything is the empty range
(spec: emptiness is data), and the RangeSet case is the spec-modelled
member-wise intersection. -/
def subOp (a b : Range) : RResult :=
  match Range.invert b with
  | .empty => .empty
  | .rng r => andOp r a
  | .rset ms => andSetRange ms a

/-- `Range.__and__` applied to an arbitrary operand.  A Range operand runs
the decorated body; `ensure_order` returns `NotImplemented` for anything
that is not a `RangeBase` instance (ranges.py line 31), which covers both
bare domain values and foreign objects. -/
def andOperand (a : Range) (x : Operand) : PyResult RResult :=
  match x with
  | .rng r => .ok (andOp a r)
  | .scalar _ => .notImplemented
  | .foreign => .notImplemented

/-- `Range.__or__` applied to an arbitrary operand (via `ensure_order`). -/
def orOperand (a : Range) (x : Operand) : PyResult RResult :=
  match x with
  | .rng r => .ok (orOp a r)
  | .scalar _ => .notImplemented
  | .foreign => .notImplemented

/-- `Range.__xor__` applied to an arbitrary operand (via `ensure_order`). -/
def xorOperand (a : Range) (x : Operand) : PyResult RResult :=
  match x with
  | .rng r => .ok (xorOp a r)
  | .scalar _ => .notImplemented
  | .foreign => .notImplemented

/-- `Range.__eq__` applied to an arbitrary operand (ranges.py line 78): the
body reads `other._cmp` unconditionally, so any operand without a `_cmp`
attribute — a bare domain value or a foreign object — raises
`AttributeError` instead of signalling `NotImplemented`. -/
def eqOperand (a : Range) (x : Operand) : PyResult Bool :=
  match x with
  | .rng r => .ok (keyEq a r)
  | .scalar _ => .error
  | .foreign => .error

/-- `Range.__lt__` applied to an arbitrary operand (ranges.py line 63): a
Range operand compares by key, a bare domain value by the scalar branch, and
a foreign object — with no order relation against domain values — makes the
comparison `self.end < other` raise `TypeError`. -/
def ltOperand (a : Range) (x : Operand) : PyResult Bool :=
  match x with
  | .rng r => .ok (Range.cmpLt a r)
  | .scalar q => .ok (a.ltVal (.fin q))
  | .foreign => .error

/-- `Range.__gt__` applied to an arbitrary operand (ranges.py line 72). -/
def gtOperand (a : Range) (x : Operand) : PyResult Bool :=
  match x with
  | .rng r => .ok (Range.cmpLt r a)
  | .scalar q => .ok (a.gtVal (.fin q))
  | .foreign => .error

/-- `Range.__sub__` applied to an arbitrary operand (ranges.py line 162):
the body `~other & self` evaluates `~other` first, so a foreign operand
without `__invert__` raises `TypeError`; a bare rational raises as well
(rationals have no complement producing a Range, and the subsequent `&`
against a Range has no reflected implementation). -/
def subOperand (a : Range) (x : Operand) : PyResult RResult :=
  match x with
  | .rng r => .ok (subOp a r)
  | .scalar _ => .error
  | .foreign => .error

theorem valLt_irrefl (v : Val) : valLt v v = false := by
  cases v <;> simp [valLt]

theorem valLt_asymm {a b : Val} (h : valLt a b = true) : valLt b a = false := by
  cases a <;> cases b <;> simp_all [valLt] <;> linarith

theorem valLt_trans {a b c : Val} (h1 : valLt a b = true) (h2 : valLt b c = true) :
    valLt a c = true := by
  cases a <;> cases b <;> cases c <;> simp_all [valLt] <;> linarith

theorem valLt_total {a b : Val} (h1 : valLt a b = false) (h2 : valLt b a = false) :
    a = b := by
  cases a <;> cases b <;> simp_all [valLt] <;> linarith

theorem valLt_flip {a b : Val} (h : valLt a b = false) : a = b ∨ valLt b a = true := by
  cases hba : valLt b a
  · exact Or.inl (valLt_total h hba)
  · exact Or.inr rfl

theorem valLt_ne {a b : Val} (h : valLt a b = true) : a ≠ b := by
  intro he
  rw [he, valLt_irrefl] at h
  exact Bool.false_ne_true h

/-- Propositional characterization of the comparison-key order. -/
theorem cmpLt_iff {a b : Range} : Range.cmpLt a b = true ↔
    valLt a.start b.start = true ∨
    (a.start = b.start ∧
      ((a.start_inc = true ∧ b.start_inc = false) ∨
        (a.start_inc = b.start_inc ∧
          (valLt a.end_ b.end_ = true ∨
            (a.end_ = b.end_ ∧ a.end_inc = false ∧ b.end_inc = true))))) := by
  obtain ⟨as, ae, asi, aei⟩ := a
  obtain ⟨bs, be, bsi, bei⟩ := b
  simp only [Range.cmpLt, boolLt, Bool.or_eq_true, Bool.and_eq_true, beq_iff_eq,
    Bool.not_not, Bool.not_eq_true']
  cases asi <;> cases bsi <;> cases aei <;> cases bei <;> simp

theorem cmpLt_asymm {a b : Range} (h : Range.cmpLt a b = true) :
    Range.cmpLt b a = false := by
  rw [Bool.eq_false_iff]
  intro hba
  rw [cmpLt_iff] at h hba
  rcases h with h | ⟨hse, h⟩
  · rcases hba with hb | ⟨hbe, _⟩
    · rw [valLt_asymm h] at hb
      exact Bool.false_ne_true hb
    · exact valLt_ne h hbe.symm
  · rcases hba with hb | ⟨_, hb⟩
    · rw [hse, valLt_irrefl] at hb
      exact Bool.false_ne_true hb
    · rcases h with ⟨h1, h2⟩ | ⟨hfe, h⟩
      · rcases hb with ⟨h3, _⟩ | ⟨hbf, _⟩
        · rw [h2] at h3
          exact Bool.false_ne_true h3
        · rw [h1, h2] at hbf
          exact Bool.false_ne_true hbf
      · rcases hb with ⟨h3, h4⟩ | ⟨_, hb⟩
        · rw [hfe] at h4
          rw [h4] at h3
          exact Bool.false_ne_true h3
        · rcases h with h | ⟨hee, he1, _⟩
          · rcases hb with hb | ⟨hbe, _⟩
            · rw [valLt_asymm h] at hb
              exact Bool.false_ne_true hb
            · exact valLt_ne h hbe.symm
          · rcases hb with hb | ⟨_, _, hb2⟩
            · rw [hee, valLt_irrefl] at hb
              exact Bool.false_ne_true hb
            · rw [he1] at hb2
              exact Bool.false_ne_true hb2

theorem cmpLt_total {a b : Range} (h1 : Range.cmpLt a b = false)
    (h2 : Range.cmpLt b a = false) : a = b := by
  have n1 : ¬ (Range.cmpLt a b = true) := by simp [h1]
  have n2 : ¬ (Range.cmpLt b a = true) := by simp [h2]
  rw [cmpLt_iff] at n1 n2
  have hv1 : valLt a.start b.start = false := by
    cases hv : valLt a.start b.start
    · rfl
    · exact absurd (Or.inl hv) n1
  have hv2 : valLt b.start a.start = false := by
    cases hv : valLt b.start a.start
    · rfl
    · exact absurd (Or.inl hv) n2
  have hse : a.start = b.start := valLt_total hv1 hv2
  have hfe : a.start_inc = b.start_inc := by
    cases hsi : a.start_inc <;> cases hbi : b.start_inc
    · rfl
    · exact absurd (Or.inr ⟨hse.symm, Or.inl ⟨hbi, hsi⟩⟩) n2
    · exact absurd (Or.inr ⟨hse, Or.inl ⟨hsi, hbi⟩⟩) n1
    · rfl
  have he1 : valLt a.end_ b.end_ = false := by
    cases hv : valLt a.end_ b.end_
    · rfl
    · exact absurd (Or.inr ⟨hse, Or.inr ⟨hfe, Or.inl hv⟩⟩) n1
  have he2 : valLt b.end_ a.end_ = false := by
    cases hv : valLt b.end_ a.end_
    · rfl
    · exact absurd (Or.inr ⟨hse.symm, Or.inr ⟨hfe.symm, Or.inl hv⟩⟩) n2
  have hee : a.end_ = b.end_ := valLt_total he1 he2
  have hie : a.end_inc = b.end_inc := by
    cases hei : a.end_inc <;> cases hbi : b.end_inc
    · rfl
    · exact absurd (Or.inr ⟨hse, Or.inr ⟨hfe, Or.inr ⟨hee, hei, hbi⟩⟩⟩) n1
    · exact absurd (Or.inr ⟨hse.symm, Or.inr ⟨hfe.symm, Or.inr ⟨hee.symm, hbi, hei⟩⟩⟩) n2
    · rfl
  obtain ⟨as, ae, asi, aei⟩ := a
  obtain ⟨bs, be, bsi, bei⟩ := b
  simp only [Range.mk.injEq]
  exact ⟨hse, hee, hfe, hie⟩

theorem cmpLt_irrefl (a : Range) : Range.cmpLt a a = false := by
  cases h : Range.cmpLt a a
  · rfl
  · exact absurd (cmpLt_asymm h) (by simp [h])

theorem cmpLt_of_ne {a b : Range} (hne : a ≠ b) (h : Range.cmpLt b a = false) :
    Range.cmpLt a b = true := by
  cases hab : Range.cmpLt a b
  · exact absurd (cmpLt_total hab h) hne
  · rfl

/-- An `ensure_order`-decorated operation has the same value however its two
operands are ordered. -/
theorem ensureOrder_comm {α : Type} (f : Range → Range → α) (a b : Range) :
    ensureOrder f a b = ensureOrder f b a := by
  unfold ensureOrder
  cases hba : Range.cmpLt b a
  · cases hab : Range.cmpLt a b
    · rw [cmpLt_total hab hba]
    · simp [hab]
  · simp [hba, cmpLt_asymm hba]

/-- Key equality of `Range.__eq__` coincides with structural equality: the
comparison key determines all four fields. -/
theorem keyEq_iff {a b : Range} : keyEq a b = true ↔ a = b := by
  obtain ⟨as, ae, asi, aei⟩ := a
  obtain ⟨bs, be, bsi, bei⟩ := b
  simp only [keyEq, Bool.and_eq_true, beq_iff_eq, Range.mk.injEq]
  cases asi <;> cases bsi <;> simp [and_assoc]

/-- C7: every binary algebra operator on Ranges is commutative — for all
ranges A and B, `A | B == B | A`, `A & B == B & A` and `A ^ B == B ^ A`:
each operator is dispatched through `ensure_order`, which evaluates a single
ordered body, so both operand orders produce the same value. -/
theorem C7_operators_commutative (a b : Range) :
    andOp a b = andOp b a ∧ orOp a b = orOp b a ∧ xorOp a b = xorOp b a :=
  ⟨ensureOrder_comm andRaw a b, ensureOrder_comm orRaw a b, ensureOrder_comm xorRaw a b⟩

/-- C9: the constructor accepts any combination of endpoints and flags and
the resulting Range is truthy (`__bool__` returns True unconditionally);
in particular the range `(5, 5)` with both bounds exclusive contains no
domain value at all, yet it is a Range and reports non-empty. -/
theorem C9_truthy_no_validation :
    (∀ s e : Val, ∀ i1 i2 : Bool, Range.bool_ ⟨s, e, i1, i2⟩ = true) ∧
    (∀ q : ℚ, Range.contains ⟨.fin 5, .fin 5, false, false⟩ (.fin q) = false) ∧
    Range.bool_ ⟨.fin 5, .fin 5, false, false⟩ = true := by
  refine ⟨fun s e i1 i2 => rfl, fun q => ?_, rfl⟩
  simp only [Range.contains, valLt, Bool.and_false, Bool.or_false, decide_eq_true_eq]
  cases h5q : decide ((5 : ℚ) < q) <;> cases hq5 : decide (q < (5 : ℚ)) <;>
    simp_all <;> linarith

/-- C5 counterexample: `Range.__eq__` applied to an operand that is neither
a Range, nor a RangeSet, nor a bare domain value reads `other._cmp` and so
raises `AttributeError` — a hard failure — instead of signalling
`NotImplemented` as the claim states for every comparison operator. -/
theorem C5_counterexample :
    eqOperand ⟨.fin 0, .fin 1, true, false⟩ .foreign = .error ∧
    (PyResult.error : PyResult Bool) ≠ .notImplemented :=
  ⟨rfl, by decide⟩

/-- C5 (amended): for a foreign operand — neither a Range, nor a RangeSet,
nor a bare domain value — the `ensure_order`-decorated algebra operators
`&`, `|`, `^` signal `NotImplemented` (a recoverable not-supported result),
but equality raises `AttributeError` (reading `other._cmp`), the order
comparisons raise `TypeError` (comparing `self.end` with an unorderable
object), and difference raises `TypeError` (evaluating `~other`): these are
hard failures, not not-supported signals. -/
theorem C5_amended (a : Range) :
    andOperand a .foreign = .notImplemented ∧
    orOperand a .foreign = .notImplemented ∧
    xorOperand a .foreign = .notImplemented ∧
    eqOperand a .foreign = .error ∧
    ltOperand a .foreign = .error ∧
    gtOperand a .foreign = .error ∧
    subOperand a .foreign = .error :=
  ⟨rfl, rfl, rfl, rfl, rfl, rfl, rfl⟩

/-- C8: the code contradicts the claim (and its own docstrings) on the
fully exclusive range `A = (0, 5)`: the union of A with itself is the
single contiguous range A, and the intersection of A with itself is A — yet
`will_join(A, A)` and `intersects(A, A)` both return False, so `A ^ A`
falls into the non-intersecting branch and returns `A | A = A` instead of
the empty range demanded by `A ^ A == empty`. -/
theorem C8_code_bug :
    Range.will_join ⟨.fin 0, .fin 5, false, false⟩ ⟨.fin 0, .fin 5, false, false⟩ = false ∧
    Range.intersects ⟨.fin 0, .fin 5, false, false⟩ ⟨.fin 0, .fin 5, false, false⟩ = false ∧
    xorOp ⟨.fin 0, .fin 5, false, false⟩ ⟨.fin 0, .fin 5, false, false⟩ =
      .rng ⟨.fin 0, .fin 5, false, false⟩ ∧
    (RResult.rng ⟨.fin 0, .fin 5, false, false⟩ ≠ .empty) := by decide

/-- C10 counterexample: for the fully exclusive unbounded-above range
`A = (3, INF)`, `will_join(A, A)` is false and the union shortcut does not
apply, so `A & A` is the empty range and `A | A` is a two-member RangeSet
holding A twice — neither operator returns A unchanged.  The claim also
fails on the zero-width inclusive-end range `(5, 5]` and on the zero-width
`[INF, INF)` at the sentinel: there `continues(A, A)` holds while the
scalar shortcut is disabled, so `A & A` is the empty range. -/
theorem C10_counterexample :
    andOp ⟨.fin 3, .inf, false, false⟩ ⟨.fin 3, .inf, false, false⟩ = .empty ∧
    orOp ⟨.fin 3, .inf, false, false⟩ ⟨.fin 3, .inf, false, false⟩ =
      .rset [⟨.fin 3, .inf, false, false⟩, ⟨.fin 3, .inf, false, false⟩] ∧
    andOp ⟨.fin 5, .fin 5, false, true⟩ ⟨.fin 5, .fin 5, false, true⟩ = .empty ∧
    andOp ⟨.inf, .inf, true, false⟩ ⟨.inf, .inf, true, false⟩ = .empty ∧
    (RResult.empty ≠ .rng ⟨.fin 3, .inf, false, false⟩) := by decide

/-- C10 (amended): `A & A == A` and `A | A == A` for every Range A outside
the two families the counterexample exhibits — A must have an inclusive
bound or a finite end (otherwise `will_join(A, A)` is false, the union
shortcut misses, `A & A` is empty and `A | A` a two-member RangeSet), and
must not be a zero-width range with differing flags whose end is inclusive
or the INF sentinel (in exactly those cases `continues(A, A)` holds while
the scalar shortcut is disabled, so `A & A` is empty; a zero-width
`[x, x)` with x below INF is unaffected, its shortcut returning A). -/
theorem C10_amended (a : Range)
    (h1 : a.start_inc = true ∨ a.end_inc = true ∨ a.end_ ≠ Val.inf)
    (h2 : ¬(a.start = a.end_ ∧ a.start_inc ≠ a.end_inc ∧
      (a.end_inc = true ∨ a.end_ = Val.inf))) :
    andOp a a = .rng a ∧ orOp a a = .rng a := by
  have hord := cmpLt_irrefl a
  have hlt : Range.ltVal a a.end_ = (!a.end_inc && !(a.end_ == Val.inf)) := by
    simp [Range.ltVal, valLt_irrefl]
  by_cases hb1 : a.end_inc = false ∧ a.end_ ≠ Val.inf
  · have hb : Range.ltVal a a.end_ = true := by
      rw [hlt, hb1.1]
      simp [hb1.2]
    exact ⟨by simp [andOp, ensureOrder, hord, andRaw, hb],
           by simp [orOp, ensureOrder, hord, orRaw, hb]⟩
  · have hcase : a.end_inc = true ∨ (a.end_inc = false ∧ a.end_ = Val.inf) := by
      cases he : a.end_inc
      · refine Or.inr ⟨rfl, ?_⟩
        by_contra hne
        exact hb1 ⟨he, hne⟩
      · exact Or.inl rfl
    have hnb : Range.ltVal a a.end_ = false := by
      rw [hlt]
      rcases hcase with he | ⟨he, hinf⟩
      · simp [he]
      · simp [hinf]
    have hwj : will_joinRaw a a = true := by
      rcases hcase with he | ⟨he, hinf⟩
      · simp [will_joinRaw, Range.contains, he]
      · have hsi : a.start_inc = true := by
          rcases h1 with h | h | h
          · exact h
          · rw [he] at h
            exact absurd h (by simp)
          · exact absurd hinf h
        simp [will_joinRaw, Range.contains, hsi]
    have hcont : continuesRaw a a = false := by
      by_cases hse : a.start = a.end_
      · have hie : a.start_inc = a.end_inc := by
          by_contra hne
          refine h2 ⟨hse, hne, ?_⟩
          rcases hcase with he | ⟨_, hinf⟩
          · exact Or.inl he
          · exact Or.inr hinf
        simp [continuesRaw, hie]
      · have : (a.end_ == a.start) = false := by
          simp only [beq_eq_false_iff_ne, ne_eq]
          exact fun h => hse h.symm
        simp [continuesRaw, this]
    have hint : intersectsRaw a a = true := by
      simp [intersectsRaw, Range.will_join, Range.continues, ensureOrder, hord, hwj, hcont]
    constructor
    · simp [andOp, ensureOrder, hord, andRaw, hnb, Range.intersects, hint]
    · simp [orOp, ensureOrder, hord, orRaw, hnb, Range.will_join, hwj]

/-- C10 amended witness: the half-open range `[0, 5)` satisfies both
side conditions and is returned unchanged by self-intersection and
self-union. -/
theorem C10_amended_witness :
    andOp ⟨.fin 0, .fin 5, true, false⟩ ⟨.fin 0, .fin 5, true, false⟩ =
      .rng ⟨.fin 0, .fin 5, true, false⟩ ∧
    orOp ⟨.fin 0, .fin 5, true, false⟩ ⟨.fin 0, .fin 5, true, false⟩ =
      .rng ⟨.fin 0, .fin 5, true, false⟩ :=
  C10_amended ⟨.fin 0, .fin 5, true, false⟩ (by decide) (by decide)

/-- Propositional characterization of containment at a finite value. -/
theorem contains_fin_iff {a : Range} {q : ℚ} : a.contains (.fin q) = true ↔
    (valLt a.start (.fin q) = true ∧ valLt (.fin q) a.end_ = true) ∨
    (a.start = .fin q ∧ a.start_inc = true) ∨
    (a.end_ = .fin q ∧ a.end_inc = true) := by
  simp only [Range.contains, Bool.or_eq_true, Bool.and_eq_true, beq_iff_eq]
  tauto

/-- Propositional characterization of properness. -/
theorem proper_iff {a : Range} : a.proper = true ↔
    valLt a.start a.end_ = true ∨
    (a.start = a.end_ ∧ a.start_inc = true ∧ a.end_inc = true ∧ a.start.isFin = true) := by
  simp only [Range.proper, Bool.or_eq_true, Bool.and_eq_true, beq_iff_eq]
  tauto

/-- On a proper range the scalar comparison `A < v` of `Range.__lt__` holds
exactly when every domain value contained in A lies strictly below `v`. -/
theorem ltVal_semantics {a : Range} (hp : a.proper = true) (v : ℚ) :
    (a.ltVal (.fin v) = true ↔ ∀ q : ℚ, a.contains (.fin q) = true → q < v) := by
  have hp' := proper_iff.mp hp
  cases he : a.end_ with
  | ninf =>
    exfalso
    rcases hp' with h | ⟨h1, _, _, h4⟩
    · rw [he] at h
      cases hs : a.start <;> rw [hs] at h <;> simp [valLt] at h
    · rw [h1, he] at h4
      simp [Val.isFin] at h4
  | inf =>
    have hsyn : a.ltVal (.fin v) = false := by
      simp [Range.ltVal, he, valLt]
    rw [hsyn]
    simp only [Bool.false_eq_true, false_iff]
    intro hall
    rcases hp' with h | ⟨h1, _, _, h4⟩
    · rw [he] at h
      cases hs : a.start with
      | ninf =>
        have hc : a.contains (.fin v) = true := by
          rw [contains_fin_iff, hs, he]
          simp [valLt]
        have := hall _ hc
        linarith
      | fin s =>
        have hc : a.contains (.fin (max s v + 1)) = true := by
          rw [contains_fin_iff, hs, he]
          refine Or.inl ⟨?_, by simp [valLt]⟩
          simp only [valLt, decide_eq_true_eq]
          linarith [le_max_left s v]
        have := hall _ hc
        linarith [le_max_right s v]
      | inf =>
        rw [hs] at h
        simp [valLt] at h
    · rw [h1, he] at h4
      simp [Val.isFin] at h4
  | fin e =>
    have hsyn : a.ltVal (.fin v) = true ↔ (e < v ∨ (a.end_inc = false ∧ e = v)) := by
      simp [Range.ltVal, he, valLt, Bool.or_eq_true, Bool.and_eq_true,
        Bool.not_eq_true', decide_eq_true_eq, beq_iff_eq]
    rw [hsyn]
    constructor
    · rintro hs q hq
      rw [contains_fin_iff] at hq
      rcases hq with ⟨_, hq2⟩ | ⟨hq1, hq2⟩ | ⟨hq1, hq2⟩
      · rw [he] at hq2
        have hqe : q < e := by simpa [valLt] using hq2
        rcases hs with h | ⟨_, h⟩
        · linarith
        · rw [← h]; exact hqe
      · rcases hp' with h | ⟨heq, _, hei, _⟩
        · rw [hq1, he] at h
          have hqe : q < e := by simpa [valLt] using h
          rcases hs with h' | ⟨_, h'⟩
          · linarith
          · rw [← h']; exact hqe
        · rw [hq1, he] at heq
          have hqe : q = e := by simpa using heq
          rcases hs with h' | ⟨hei', _⟩
          · rw [hqe]; exact h'
          · rw [hei'] at hei
            exact absurd hei (by simp)
      · rw [he] at hq1
        have hqe : e = q := by simpa using hq1
        rcases hs with h' | ⟨hei', _⟩
        · rw [← hqe]; exact h'
        · rw [hq2] at hei'
          exact absurd hei' (by simp)
    · intro hall
      by_contra hns
      push_neg at hns
      obtain ⟨hve, hne2⟩ := hns
      rcases lt_or_eq_of_le hve with hlt | heqv
      · rcases hp' with h | ⟨heq, _, hei, _⟩
        · cases hs : a.start with
          | ninf =>
            have hc : a.contains (.fin ((v + e) / 2)) = true := by
              rw [contains_fin_iff, hs, he]
              refine Or.inl ⟨by simp [valLt], ?_⟩
              simp only [valLt, decide_eq_true_eq]
              linarith
            have := hall _ hc
            linarith
          | fin s =>
            rw [hs, he] at h
            have hse : s < e := by simpa [valLt] using h
            have hme : max s v < e := max_lt hse hlt
            have hc : a.contains (.fin ((max s v + e) / 2)) = true := by
              rw [contains_fin_iff, hs, he]
              refine Or.inl ⟨?_, ?_⟩
              · simp only [valLt, decide_eq_true_eq]
                linarith [le_max_left s v]
              · simp only [valLt, decide_eq_true_eq]
                linarith
            have := hall _ hc
            linarith [le_max_right s v]
          | inf =>
            rw [hs, he] at h
            simp [valLt] at h
        · have hc : a.contains (.fin e) = true := by
            rw [contains_fin_iff, he]
            exact Or.inr (Or.inr ⟨rfl, hei⟩)
          have := hall _ hc
          linarith
      · have hie : a.end_inc = true := by
          cases hi : a.end_inc
          · exact absurd heqv.symm (hne2 hi)
          · rfl
        have hc : a.contains (.fin e) = true := by
          rw [contains_fin_iff, he]
          exact Or.inr (Or.inr ⟨rfl, hie⟩)
        have := hall _ hc
        linarith

/-- On a proper range the scalar comparison `A > v` of `Range.__gt__` holds
exactly when every domain value contained in A lies strictly above `v`. -/
theorem gtVal_semantics {a : Range} (hp : a.proper = true) (v : ℚ) :
    (a.gtVal (.fin v) = true ↔ ∀ q : ℚ, a.contains (.fin q) = true → v < q) := by
  have hp' := proper_iff.mp hp
  cases hs : a.start with
  | inf =>
    exfalso
    rcases hp' with h | ⟨h1, _, _, h4⟩
    · rw [hs] at h
      cases he : a.end_ <;> rw [he] at h <;> simp [valLt] at h
    · rw [hs] at h4
      simp [Val.isFin] at h4
  | ninf =>
    have hsyn : a.gtVal (.fin v) = false := by
      simp [Range.gtVal, hs, valLt]
    rw [hsyn]
    simp only [Bool.false_eq_true, false_iff]
    intro hall
    rcases hp' with h | ⟨h1, _, _, h4⟩
    · rw [hs] at h
      cases he : a.end_ with
      | inf =>
        have hc : a.contains (.fin v) = true := by
          rw [contains_fin_iff, hs, he]
          simp [valLt]
        have := hall _ hc
        linarith
      | fin e =>
        have hc : a.contains (.fin (min v e - 1)) = true := by
          rw [contains_fin_iff, hs, he]
          refine Or.inl ⟨by simp [valLt], ?_⟩
          simp only [valLt, decide_eq_true_eq]
          linarith [min_le_right v e]
        have := hall _ hc
        linarith [min_le_left v e]
      | ninf =>
        rw [he] at h
        simp [valLt] at h
    · rw [hs] at h4
      simp [Val.isFin] at h4
  | fin s =>
    have hsyn : a.gtVal (.fin v) = true ↔ (v < s ∨ (a.start_inc = false ∧ s = v)) := by
      simp [Range.gtVal, hs, valLt, Bool.or_eq_true, Bool.and_eq_true,
        Bool.not_eq_true', decide_eq_true_eq, beq_iff_eq]
    rw [hsyn]
    constructor
    · rintro hg q hq
      rw [contains_fin_iff] at hq
      rcases hq with ⟨hq1, _⟩ | ⟨hq1, hq2⟩ | ⟨hq1, hq2⟩
      · rw [hs] at hq1
        have hsq : s < q := by simpa [valLt] using hq1
        rcases hg with h | ⟨_, h⟩
        · linarith
        · rw [← h]; exact hsq
      · rw [hs] at hq1
        have hsq : s = q := by simpa using hq1
        rcases hg with h' | ⟨hsi', _⟩
        · rw [← hsq]; exact h'
        · rw [hq2] at hsi'
          exact absurd hsi' (by simp)
      · rcases hp' with h | ⟨heq, hsi, _, _⟩
        · rw [hs, hq1] at h
          have hsq : s < q := by simpa [valLt] using h
          rcases hg with h' | ⟨_, h'⟩
          · linarith
          · rw [← h']; exact hsq
        · rw [hs, hq1] at heq
          have hsq : s = q := by simpa using heq
          rcases hg with h' | ⟨hsi', _⟩
          · rw [← hsq]; exact h'
          · rw [hsi] at hsi'
            exact absurd hsi' (by simp)
    · intro hall
      by_contra hns
      push_neg at hns
      obtain ⟨hsv, hne2⟩ := hns
      rcases lt_or_eq_of_le hsv with hlt | heqv
      · rcases hp' with h | ⟨heq, hsi, _, _⟩
        · cases he : a.end_ with
          | inf =>
            have hc : a.contains (.fin ((s + v) / 2)) = true := by
              rw [contains_fin_iff, hs, he]
              refine Or.inl ⟨?_, by simp [valLt]⟩
              simp only [valLt, decide_eq_true_eq]
              linarith
            have := hall _ hc
            linarith
          | fin e =>
            rw [hs, he] at h
            have hse : s < e := by simpa [valLt] using h
            have hsm : s < min v e := lt_min hlt hse
            have hc : a.contains (.fin ((s + min v e) / 2)) = true := by
              rw [contains_fin_iff, hs, he]
              refine Or.inl ⟨?_, ?_⟩
              · simp only [valLt, decide_eq_true_eq]
                linarith
              · simp only [valLt, decide_eq_true_eq]
                linarith [min_le_right v e]
            have := hall _ hc
            linarith [min_le_left v e]
          | ninf =>
            rw [hs, he] at h
            simp [valLt] at h
        · have hc : a.contains (.fin s) = true := by
            rw [contains_fin_iff, hs]
            exact Or.inr (Or.inl ⟨rfl, hsi⟩)
          have := hall _ hc
          linarith
      · have hsi : a.start_inc = true := by
          cases hi : a.start_inc
          · exact absurd heqv (hne2 hi)
          · rfl
        have hc : a.contains (.fin s) = true := by
          rw [contains_fin_iff, hs]
          exact Or.inr (Or.inl ⟨rfl, hsi⟩)
        have := hall _ hc
        linarith

/-- C6 counterexample: the zero-width range `A = (5, 5]` (exclusive start,
inclusive end at the same point) contains the value 5, yet `A > 5` holds
under `Range.__gt__` — so "A is greater than v iff every point of A is
strictly greater than v" fails, and a value lying inside A compares as
greater. -/
theorem C6_counterexample :
    Range.gtVal ⟨.fin 5, .fin 5, false, true⟩ (.fin 5) = true ∧
    Range.contains ⟨.fin 5, .fin 5, false, true⟩ (.fin 5) = true ∧
    ¬((5 : ℚ) < 5) := by decide

/-- C6 (amended): for every Range A denoting a nonempty set (proper: start
strictly below end, or a one-point range with both bounds inclusive at a
finite value) and every bare domain value v — `A < v` holds iff every point
of A is strictly below v, which is iff `A.end < v` or `A.end == v` with the
upper bound exclusive and not the INF sentinel (an unbounded-above range is
never less than any finite value); symmetrically `A > v` against the lower
bound; and a v contained in A compares as neither less nor greater. -/
theorem C6_amended (a : Range) (hp : a.proper = true) (v : ℚ) :
    (a.ltVal (.fin v) = true ↔
      (valLt a.end_ (.fin v) = true ∨ (a.end_ = .fin v ∧ a.end_inc = false ∧ a.end_ ≠ .inf))) ∧
    (a.ltVal (.fin v) = true ↔ ∀ q : ℚ, a.contains (.fin q) = true → q < v) ∧
    (a.gtVal (.fin v) = true ↔
      (valLt (.fin v) a.start = true ∨ (a.start = .fin v ∧ a.start_inc = false ∧ a.start ≠ .ninf))) ∧
    (a.gtVal (.fin v) = true ↔ ∀ q : ℚ, a.contains (.fin q) = true → v < q) ∧
    (a.contains (.fin v) = true → a.ltVal (.fin v) = false ∧ a.gtVal (.fin v) = false) ∧
    (a.end_ = .inf → a.ltVal (.fin v) = false) := by
  refine ⟨?_, ltVal_semantics hp v, ?_, gtVal_semantics hp v, ?_, ?_⟩
  · simp only [Range.ltVal, Bool.or_eq_true, Bool.and_eq_true, Bool.not_eq_true',
      beq_iff_eq, beq_eq_false_iff_ne, ne_eq]
    tauto
  · simp only [Range.gtVal, Bool.or_eq_true, Bool.and_eq_true, Bool.not_eq_true',
      beq_iff_eq, beq_eq_false_iff_ne, ne_eq]
    tauto
  · intro hcv
    constructor
    · cases hl : a.ltVal (.fin v)
      · rfl
      · exact absurd ((ltVal_semantics hp v).mp hl v hcv) (lt_irrefl v)
    · cases hg : a.gtVal (.fin v)
      · rfl
      · exact absurd ((gtVal_semantics hp v).mp hg v hcv) (lt_irrefl v)
  · intro hinf
    simp [Range.ltVal, hinf, valLt]

/-- C6 amended witness: the proper range `[0, 5)` contains 3, and compares
as neither less nor greater than 3. -/
theorem C6_amended_witness :
    Range.proper ⟨.fin 0, .fin 5, true, false⟩ = true ∧
    Range.contains ⟨.fin 0, .fin 5, true, false⟩ (.fin 3) = true ∧
    (Range.ltVal ⟨.fin 0, .fin 5, true, false⟩ (.fin 3) = false ∧
      Range.gtVal ⟨.fin 0, .fin 5, true, false⟩ (.fin 3) = false) :=
  ⟨by decide, by decide,
    (C6_amended ⟨.fin 0, .fin 5, true, false⟩ (by decide) 3).2.2.2.2.1 (by decide)⟩

/-- Propositional characterization of containment at any endpoint value. -/
theorem contains_iff {r : Range} {v : Val} : r.contains v = true ↔
    (valLt r.start v = true ∧ valLt v r.end_ = true) ∨
    (r.start = v ∧ r.start_inc = true) ∨
    (r.end_ = v ∧ r.end_inc = true) := by
  simp only [Range.contains, Bool.or_eq_true, Bool.and_eq_true, beq_iff_eq]
  tauto

/-- Propositional characterization of the scalar-lt branch. -/
theorem ltVal_iff {r : Range} {v : Val} : r.ltVal v = true ↔
    valLt r.end_ v = true ∨ (r.end_inc = false ∧ r.end_ = v ∧ r.end_ ≠ .inf) := by
  simp only [Range.ltVal, Bool.or_eq_true, Bool.and_eq_true, Bool.not_eq_true',
    beq_iff_eq, beq_eq_false_iff_ne, ne_eq]
  tauto

/-- Propositional characterization of the scalar-gt branch. -/
theorem gtVal_iff {r : Range} {v : Val} : r.gtVal v = true ↔
    valLt v r.start = true ∨ (r.start_inc = false ∧ r.start = v ∧ r.start ≠ .ninf) := by
  simp only [Range.gtVal, Bool.or_eq_true, Bool.and_eq_true, Bool.not_eq_true',
    beq_iff_eq, beq_eq_false_iff_ne, ne_eq]
  tauto

/-- Propositional characterization of the touching predicate. -/
theorem continuesRaw_iff {s o : Range} : continuesRaw s o = true ↔
    (s.end_inc ≠ o.start_inc ∧ s.end_ = o.start) := by
  simp only [continuesRaw, Bool.and_eq_true, bne_iff_ne, ne_eq, beq_iff_eq]

/-- Propositional characterization of the joinability predicate. -/
theorem will_joinRaw_iff {s o : Range} : will_joinRaw s o = true ↔
    (s.contains o.start = true ∨ o.contains s.end_ = true) := by
  simp only [will_joinRaw, Bool.or_eq_true]

/-- Propositional characterization of the lower-bound order. -/
theorem lowerLt_iff {s o : Range} : lowerLt s o = true ↔
    valLt s.start o.start = true ∨
    (s.start = o.start ∧ s.start_inc = true ∧ o.start_inc = false) := by
  simp only [lowerLt, Bool.or_eq_true, Bool.and_eq_true, beq_iff_eq,
    Bool.not_eq_true']
  try tauto

/-- Propositional characterization of the upper-bound order. -/
theorem upperLt_iff {s o : Range} : upperLt s o = true ↔
    valLt s.end_ o.end_ = true ∨
    (s.end_ = o.end_ ∧ s.end_inc = false ∧ o.end_inc = true) := by
  simp only [upperLt, boolLt, Bool.or_eq_true, Bool.and_eq_true, beq_iff_eq,
    Bool.not_eq_true']
  try tauto

theorem lowerLt_total {s o : Range} (h1 : lowerLt s o = false) (h2 : lowerLt o s = false) :
    s.start = o.start ∧ s.start_inc = o.start_inc := by
  have n1 : ¬ (lowerLt s o = true) := by simp [h1]
  have n2 : ¬ (lowerLt o s = true) := by simp [h2]
  rw [lowerLt_iff] at n1 n2
  have hv1 : valLt s.start o.start = false := by
    cases hv : valLt s.start o.start
    · rfl
    · exact absurd (Or.inl hv) n1
  have hv2 : valLt o.start s.start = false := by
    cases hv : valLt o.start s.start
    · rfl
    · exact absurd (Or.inl hv) n2
  have hse := valLt_total hv1 hv2
  refine ⟨hse, ?_⟩
  cases hsi : s.start_inc <;> cases hoi : o.start_inc
  · rfl
  · exact absurd (Or.inr ⟨hse.symm, hoi, hsi⟩) n2
  · exact absurd (Or.inr ⟨hse, hsi, hoi⟩) n1
  · rfl

theorem upperLt_total {s o : Range} (h1 : upperLt s o = false) (h2 : upperLt o s = false) :
    s.end_ = o.end_ ∧ s.end_inc = o.end_inc := by
  have n1 : ¬ (upperLt s o = true) := by simp [h1]
  have n2 : ¬ (upperLt o s = true) := by simp [h2]
  rw [upperLt_iff] at n1 n2
  have hv1 : valLt s.end_ o.end_ = false := by
    cases hv : valLt s.end_ o.end_
    · rfl
    · exact absurd (Or.inl hv) n1
  have hv2 : valLt o.end_ s.end_ = false := by
    cases hv : valLt o.end_ s.end_
    · rfl
    · exact absurd (Or.inl hv) n2
  have hee := valLt_total hv1 hv2
  refine ⟨hee, ?_⟩
  cases hsi : s.end_inc <;> cases hoi : o.end_inc
  · rfl
  · exact absurd (Or.inr ⟨hee, hsi, hoi⟩) n1
  · exact absurd (Or.inr ⟨hee.symm, hoi, hsi⟩) n2
  · rfl

/-- A range earlier in the comparison-key order has a lower bound that is no
later: the key order compares `(start, not start_inc)` first. -/
theorem cmpLt_lowerLe {s o : Range} (h : Range.cmpLt s o = true) : lowerLt o s = false := by
  rw [Bool.eq_false_iff]
  intro hlo
  rw [cmpLt_iff] at h
  rw [lowerLt_iff] at hlo
  rcases h with h | ⟨hse, h⟩
  · rcases hlo with hl | ⟨hle, _⟩
    · rw [valLt_asymm h] at hl
      exact Bool.false_ne_true hl
    · exact valLt_ne h hle.symm
  · rcases hlo with hl | ⟨_, hoi, hsi⟩
    · rw [hse, valLt_irrefl] at hl
      exact Bool.false_ne_true hl
    · rcases h with ⟨h1, _⟩ | ⟨hfe, _⟩
      · rw [h1] at hsi
        exact Bool.false_ne_true hsi.symm
      · rw [hfe, hoi] at hsi
        exact Bool.false_ne_true hsi.symm

theorem will_join_eq_raw {s o : Range} (hord : Range.cmpLt o s = false) :
    Range.will_join s o = will_joinRaw s o := by
  simp [Range.will_join, ensureOrder, hord]

theorem continues_eq_raw {s o : Range} (hord : Range.cmpLt o s = false) :
    Range.continues s o = continuesRaw s o := by
  simp [Range.continues, ensureOrder, hord]

theorem intersectsRaw_eq {s o : Range} (hord : Range.cmpLt o s = false) :
    intersectsRaw s o = (will_joinRaw s o && !(continuesRaw s o)) := by
  rw [intersectsRaw, will_join_eq_raw hord, continues_eq_raw hord]

theorem lowerLt_asymm {s o : Range} (h : lowerLt s o = true) : lowerLt o s = false := by
  rw [Bool.eq_false_iff]
  intro h2
  rw [lowerLt_iff] at h h2
  rcases h with h | ⟨he, hsi, hoi⟩
  · rcases h2 with h2 | ⟨he2, _⟩
    · rw [valLt_asymm h] at h2
      exact Bool.false_ne_true h2
    · exact valLt_ne h he2.symm
  · rcases h2 with h2 | ⟨_, hoi2, _⟩
    · rw [he, valLt_irrefl] at h2
      exact Bool.false_ne_true h2
    · rw [hoi] at hoi2
      exact Bool.false_ne_true hoi2

theorem upperLt_asymm {s o : Range} (h : upperLt s o = true) : upperLt o s = false := by
  rw [Bool.eq_false_iff]
  intro h2
  rw [upperLt_iff] at h h2
  rcases h with h | ⟨he, hsi, hoi⟩
  · rcases h2 with h2 | ⟨he2, _⟩
    · rw [valLt_asymm h] at h2
      exact Bool.false_ne_true h2
    · exact valLt_ne h he2.symm
  · rcases h2 with h2 | ⟨_, hoi2, _⟩
    · rw [he, valLt_irrefl] at h2
      exact Bool.false_ne_true h2
    · rw [hoi] at hoi2
      exact Bool.false_ne_true hoi2.symm

theorem lowerMax_comm (a b : Range) : lowerMax a b = lowerMax b a := by
  unfold lowerMax
  cases hab : lowerLt a b
  · cases hba : lowerLt b a
    · obtain ⟨h1, h2⟩ := lowerLt_total hab hba
      simp [h1, h2]
    · simp
  · rw [lowerLt_asymm hab]
    simp

theorem lowerMin_comm (a b : Range) : lowerMin a b = lowerMin b a := by
  unfold lowerMin
  cases hab : lowerLt a b
  · cases hba : lowerLt b a
    · obtain ⟨h1, h2⟩ := lowerLt_total hab hba
      simp [h1, h2]
    · simp
  · rw [lowerLt_asymm hab]
    simp

theorem upperMax_comm (a b : Range) : upperMax a b = upperMax b a := by
  unfold upperMax
  cases hab : upperLt a b
  · cases hba : upperLt b a
    · obtain ⟨h1, h2⟩ := upperLt_total hab hba
      simp [h1, h2]
    · simp
  · rw [upperLt_asymm hab]
    simp

theorem upperMin_comm (a b : Range) : upperMin a b = upperMin b a := by
  unfold upperMin
  cases hab : upperLt a b
  · cases hba : upperLt b a
    · obtain ⟨h1, h2⟩ := upperLt_total hab hba
      simp [h1, h2]
    · simp
  · rw [upperLt_asymm hab]
    simp

theorem specInter_comm (a b : Range) : specInter a b = specInter b a := by
  unfold specInter
  rw [lowerMax_comm, upperMin_comm]

theorem specUnion_comm (a b : Range) : specUnion a b = specUnion b a := by
  unfold specUnion
  rw [lowerMin_comm, upperMax_comm]

/-- When the containment shortcut `self.end > other` fires on an ordered
pair of distinct proper ranges, the two ranges strictly intersect: the
shortcut never hides a disjoint or merely touching pair. -/
theorem branch1_intersects {s o : Range}
    (hps : valLt s.start s.end_ = true) (hpo : valLt o.start o.end_ = true)
    (hord : Range.cmpLt o s = false) (hne : s ≠ o)
    (hb1 : o.ltVal s.end_ = true) :
    will_joinRaw s o = true ∧ continuesRaw s o = false := by
  have hcmp : Range.cmpLt s o = true := cmpLt_of_ne hne hord
  have hb1' := ltVal_iff.mp hb1
  have host : valLt o.start s.end_ = true := by
    rcases hb1' with h | ⟨_, h, _⟩
    · exact valLt_trans hpo h
    · rw [← h]
      exact hpo
  have hcontf : continuesRaw s o = false := by
    rw [Bool.eq_false_iff]
    intro hc
    obtain ⟨_, he⟩ := continuesRaw_iff.mp hc
    rw [he, valLt_irrefl] at host
    exact Bool.false_ne_true host
  refine ⟨?_, hcontf⟩
  rw [cmpLt_iff] at hcmp
  rcases hcmp with h | ⟨hse, h⟩
  · rw [will_joinRaw_iff]
    refine Or.inl ?_
    rw [contains_iff]
    exact Or.inl ⟨h, host⟩
  · rcases h with ⟨hsi, _⟩ | ⟨hfe, h⟩
    · rw [will_joinRaw_iff]
      refine Or.inl ?_
      rw [contains_iff]
      exact Or.inr (Or.inl ⟨hse, hsi⟩)
    · rcases h with hee | ⟨hee, hsef, hoit⟩
      · rcases hb1' with hx | ⟨_, hx, _⟩
        · rw [valLt_asymm hee] at hx
          exact absurd hx (by simp)
        · rw [hx, valLt_irrefl] at hee
          exact absurd hee (by simp)
      · rcases hb1' with hx | ⟨hoi, _, _⟩
        · rw [← hee, valLt_irrefl] at hx
          exact absurd hx (by simp)
        · rw [hoit] at hoi
          exact absurd hoi (by simp)

/-- For proper ranges, `A.end < B` under the scalar comparison implies that
A and B do not intersect. -/
theorem gtVal_not_intersects {a b : Range}
    (hpa : valLt a.start a.end_ = true) (hpb : valLt b.start b.end_ = true)
    (hg : b.gtVal a.end_ = true) :
    Range.intersects a b = false := by
  have hg' := gtVal_iff.mp hg
  have hab : Range.cmpLt a b = true := by
    rw [cmpLt_iff]
    refine Or.inl ?_
    rcases hg' with h | ⟨_, h, _⟩
    · exact valLt_trans hpa h
    · rw [h]
      exact hpa
  have hba : Range.cmpLt b a = false := cmpLt_asymm hab
  have hira : Range.intersects a b = intersectsRaw a b := by
    simp [Range.intersects, ensureOrder, hba]
  rw [hira, intersectsRaw_eq hba]
  rcases hg' with h | ⟨hbsi, hbs, _⟩
  · have hwj : will_joinRaw a b = false := by
      rw [Bool.eq_false_iff]
      intro hw
      rcases will_joinRaw_iff.mp hw with hc | hc
      · rcases contains_iff.mp hc with ⟨_, h2⟩ | ⟨h1, _⟩ | ⟨h1, _⟩
        · rw [valLt_asymm h] at h2
          exact Bool.false_ne_true h2
        · rw [← h1] at h
          rw [valLt_asymm hpa] at h
          exact Bool.false_ne_true h
        · rw [← h1, valLt_irrefl] at h
          exact Bool.false_ne_true h
      · rcases contains_iff.mp hc with ⟨h1, _⟩ | ⟨h1, _⟩ | ⟨h1, _⟩
        · rw [valLt_asymm h] at h1
          exact Bool.false_ne_true h1
        · rw [h1, valLt_irrefl] at h
          exact Bool.false_ne_true h
        · rw [h1] at hpb
          rw [valLt_asymm h] at hpb
          exact Bool.false_ne_true hpb
    rw [hwj]
    rfl
  · by_cases hei : a.end_inc = true
    · have hcont : continuesRaw a b = true := by
        rw [continuesRaw_iff]
        refine ⟨?_, hbs.symm⟩
        rw [hei, hbsi]
        simp
      rw [hcont]
      simp
    · have hei' : a.end_inc = false := by
        cases h : a.end_inc
        · rfl
        · exact absurd h hei
      have hwj : will_joinRaw a b = false := by
        rw [Bool.eq_false_iff]
        intro hw
        rcases will_joinRaw_iff.mp hw with hc | hc
        · rcases contains_iff.mp hc with ⟨_, h2⟩ | ⟨h1, _⟩ | ⟨h1, h2⟩
          · rw [hbs, valLt_irrefl] at h2
            exact Bool.false_ne_true h2
          · rw [h1, hbs, valLt_irrefl] at hpa
            exact Bool.false_ne_true hpa
          · rw [hei'] at h2
            exact Bool.false_ne_true h2
        · rcases contains_iff.mp hc with ⟨h1, _⟩ | ⟨h1, h2⟩ | ⟨h1, h2⟩
          · rw [hbs, valLt_irrefl] at h1
            exact Bool.false_ne_true h1
          · rw [hbsi] at h2
            exact Bool.false_ne_true h2
          · rw [h1, hbs, valLt_irrefl] at hpb
            exact Bool.false_ne_true hpb
      rw [hwj]
      rfl

/-- Ordered-pair body of the amended intersection claim: on distinct proper
ranges (and excluding the both-ends-INF flag tie) `Range.__and__` returns
the empty range exactly when the ranges do not intersect, and otherwise the
range from the larger lower bound to the smaller upper bound. -/
theorem andRaw_spec {s o : Range}
    (hps : valLt s.start s.end_ = true) (hpo : valLt o.start o.end_ = true)
    (hord : Range.cmpLt o s = false) (hne : s ≠ o)
    (hinf : ¬(s.end_ = .inf ∧ o.end_ = .inf ∧ s.end_inc ≠ o.end_inc)) :
    (intersectsRaw s o = false → andRaw s o = .empty) ∧
    (intersectsRaw s o = true → andRaw s o = .rng (specInter s o)) := by
  have hcmp : Range.cmpLt s o = true := cmpLt_of_ne hne hord
  have hlowmax : lowerMax s o = (o.start, o.start_inc) := by
    unfold lowerMax
    cases hlo : lowerLt s o
    · have hl2 : lowerLt o s = false := cmpLt_lowerLe hcmp
      obtain ⟨h1, h2⟩ := lowerLt_total hlo hl2
      simp [h1, h2]
    · simp
  constructor
  · intro hint
    have hb1 : o.ltVal s.end_ = false := by
      cases hb : o.ltVal s.end_
      · rfl
      · obtain ⟨hw, hc⟩ := branch1_intersects hps hpo hord hne hb
        rw [intersectsRaw_eq hord, hw, hc] at hint
        exact absurd hint (by simp)
    have hio : Range.intersects s o = false := by
      simpa [Range.intersects, ensureOrder, hord] using hint
    simp [andRaw, hb1, hio]
  · intro hint
    have hio : Range.intersects s o = true := by
      simpa [Range.intersects, ensureOrder, hord] using hint
    cases hb : o.ltVal s.end_
    · have hb' : ¬(valLt o.end_ s.end_ = true ∨
          (o.end_inc = false ∧ o.end_ = s.end_ ∧ o.end_ ≠ Val.inf)) := by
        rw [← ltVal_iff]
        simp [hb]
      push_neg at hb'
      obtain ⟨hb1, hb2⟩ := hb'
      have hupmin : upperMin s o = (s.end_, s.end_inc) := by
        unfold upperMin
        cases hup : upperLt o s
        · simp
        · exfalso
          rcases upperLt_iff.mp hup with h | ⟨hee, hoi, hsi⟩
          · exact absurd h (by simp [hb1])
          · have hoinf : o.end_ = Val.inf := hb2 hoi hee
            have hsinf : s.end_ = Val.inf := by
              rw [← hee]
              exact hoinf
            refine hinf ⟨hsinf, hoinf, ?_⟩
            rw [hsi, hoi]
            simp
      simp [andRaw, hb, hio, specInter, hlowmax, hupmin]
    · have hupmin : upperMin s o = (o.end_, o.end_inc) := by
        unfold upperMin
        rcases ltVal_iff.mp hb with h | ⟨hoi, hee, _⟩
        · have hup : upperLt o s = true := by
            rw [upperLt_iff]
            exact Or.inl h
          simp [hup]
        · cases hup : upperLt o s
          · have hsei : s.end_inc = false := by
              cases hq : s.end_inc
              · rfl
              · exfalso
                have : upperLt o s = true := by
                  rw [upperLt_iff]
                  exact Or.inr ⟨hee, hoi, hq⟩
                rw [hup] at this
                exact Bool.false_ne_true this
            simp [← hee, hsei, hoi]
          · simp
      have : andRaw s o = .rng o := by
        simp [andRaw, hb]
      rw [this]
      have hspec : specInter s o = o := by
        simp [specInter, hlowmax, hupmin]
      rw [hspec]

/-- C3 counterexample: for the open range `A = (0, 5)` taken twice,
`intersects(A, A)` is false, yet `A & A` is A itself (via the containment
shortcut), not the distinguished empty range. -/
theorem C3_counterexample :
    Range.intersects ⟨.fin 0, .fin 5, false, false⟩ ⟨.fin 0, .fin 5, false, false⟩ = false ∧
    andOp ⟨.fin 0, .fin 5, false, false⟩ ⟨.fin 0, .fin 5, false, false⟩ =
      .rng ⟨.fin 0, .fin 5, false, false⟩ ∧
    (RResult.rng ⟨.fin 0, .fin 5, false, false⟩ ≠ .empty) := by decide

/-- C3 (amended): for distinct Ranges A, B each denoting a nonempty
non-degenerate interval (start strictly below end), and not both ends the
INF sentinel with differing inclusivity — if A.end is less than B under the
range-to-scalar comparison, or A and B do not intersect, then A & B is the
distinguished empty range; otherwise A & B is the single Range from
max(A.start, B.start) to min(A.end, B.end) with each bound's inclusivity
taken from the range supplying that bound (the more exclusive flag at value
ties). -/
theorem C3_amended (a b : Range)
    (hpa : valLt a.start a.end_ = true) (hpb : valLt b.start b.end_ = true)
    (hne : a ≠ b)
    (hinf : ¬(a.end_ = .inf ∧ b.end_ = .inf ∧ a.end_inc ≠ b.end_inc)) :
    (b.gtVal a.end_ = true ∨ Range.intersects a b = false → andOp a b = .empty) ∧
    (Range.intersects a b = true → andOp a b = .rng (specInter a b)) := by
  have hmain : (Range.intersects a b = false → andOp a b = .empty) ∧
      (Range.intersects a b = true → andOp a b = .rng (specInter a b)) := by
    cases hba : Range.cmpLt b a
    · have h := andRaw_spec hpa hpb hba hne hinf
      have e1 : andOp a b = andRaw a b := by
        simp [andOp, ensureOrder, hba]
      have e2 : Range.intersects a b = intersectsRaw a b := by
        simp [Range.intersects, ensureOrder, hba]
      rw [e1, e2]
      exact h
    · have hab : Range.cmpLt a b = false := cmpLt_asymm hba
      have h := andRaw_spec hpb hpa hab (Ne.symm hne)
        (fun hx => hinf ⟨hx.2.1, hx.1, (hx.2.2).symm⟩)
      have e1 : andOp a b = andRaw b a := by
        simp [andOp, ensureOrder, hba]
      have e2 : Range.intersects a b = intersectsRaw b a := by
        simp [Range.intersects, ensureOrder, hba]
      rw [e1, e2, specInter_comm a b]
      exact h
  constructor
  · rintro (hg | hni)
    · exact hmain.1 (gtVal_not_intersects hpa hpb hg)
    · exact hmain.1 hni
  · exact hmain.2

/-- C3 amended witness: `Range(0,5) & Range(3,8)` is `Range(3,5)` with
start inclusive and end exclusive — the spec's concrete scenario 1. -/
theorem C3_amended_witness :
    Range.intersects ⟨.fin 0, .fin 5, true, false⟩ ⟨.fin 3, .fin 8, true, false⟩ = true ∧
    andOp ⟨.fin 0, .fin 5, true, false⟩ ⟨.fin 3, .fin 8, true, false⟩ =
      .rng ⟨.fin 3, .fin 5, true, false⟩ := by
  refine ⟨by decide, ?_⟩
  have h := (C3_amended ⟨.fin 0, .fin 5, true, false⟩ ⟨.fin 3, .fin 8, true, false⟩
    (by decide) (by decide) (by decide) (by decide)).2 (by decide)
  rw [h]
  decide

theorem lowerLt_irrefl (r : Range) : lowerLt r r = false := by
  cases h : lowerLt r r
  · rfl
  · exact absurd (lowerLt_asymm h) (by simp [h])

/-- Ordered-pair body of the amended union claim. -/
theorem orRaw_spec {s o : Range}
    (hps : valLt s.start s.end_ = true) (hpo : valLt o.start o.end_ = true)
    (hord : Range.cmpLt o s = false) :
    (s ≠ o → will_joinRaw s o = false → orRaw s o = .rset [s, o]) ∧
    (will_joinRaw s o = true →
      ¬(s.end_ = .inf ∧ o.end_ = .inf ∧ s.end_inc ≠ o.end_inc) →
      orRaw s o = .rng (specUnion s o)) := by
  have hlow : lowerLt o s = false := by
    by_cases heq : s = o
    · rw [heq]
      exact lowerLt_irrefl o
    · exact cmpLt_lowerLe (cmpLt_of_ne heq hord)
  have hlowmin : lowerMin s o = (s.start, s.start_inc) := by
    unfold lowerMin
    simp [hlow]
  constructor
  · intro hne hwjf
    have hb1 : o.ltVal s.end_ = false := by
      cases hb : o.ltVal s.end_
      · rfl
      · obtain ⟨hw, _⟩ := branch1_intersects hps hpo hord hne hb
        rw [hw] at hwjf
        exact absurd hwjf (by simp)
    have hwj' : Range.will_join s o = false := by
      rw [will_join_eq_raw hord, hwjf]
    have hsort : sortRanges [s, o] = [s, o] := by
      simp [sortRanges, insortRange, hord]
    have hcanon : canonList [s, o] = [s, o] := by
      simp [canonList, canonFold, hwj']
    simp [orRaw, hb1, hwj', rangeSetMk, hsort, hcanon]
  · intro hwjt hinf
    have hwj' : Range.will_join s o = true := by
      rw [will_join_eq_raw hord, hwjt]
    cases hb : o.ltVal s.end_
    · have hb' : ¬(valLt o.end_ s.end_ = true ∨
          (o.end_inc = false ∧ o.end_ = s.end_ ∧ o.end_ ≠ Val.inf)) := by
        rw [← ltVal_iff]
        simp [hb]
      push_neg at hb'
      obtain ⟨hb1, hb2⟩ := hb'
      have hupmax : upperMax s o = (o.end_, o.end_inc) := by
        unfold upperMax
        cases hup : upperLt s o
        · have hup2 : upperLt o s = false := by
            cases h2 : upperLt o s
            · rfl
            · exfalso
              rcases upperLt_iff.mp h2 with h | ⟨hee, hoi, hsi⟩
              · exact absurd h (by simp [hb1])
              · have hoinf : o.end_ = Val.inf := hb2 hoi hee
                have hsinf : s.end_ = Val.inf := by
                  rw [← hee]
                  exact hoinf
                refine hinf ⟨hsinf, hoinf, ?_⟩
                rw [hsi, hoi]
                simp
          obtain ⟨h1, h2⟩ := upperLt_total hup hup2
          simp [h1, h2]
        · simp
      have : orRaw s o = .rng ⟨s.start, o.end_, s.start_inc, o.end_inc⟩ := by
        simp [orRaw, hb, hwj']
      rw [this]
      have hspec : specUnion s o = ⟨s.start, o.end_, s.start_inc, o.end_inc⟩ := by
        simp [specUnion, hlowmin, hupmax]
      rw [hspec]
    · have hupmax : upperMax s o = (s.end_, s.end_inc) := by
        unfold upperMax
        have hup : upperLt s o = false := by
          cases h2 : upperLt s o
          · rfl
          · exfalso
            rcases ltVal_iff.mp hb with h | ⟨hoi, hee, _⟩
            · rcases upperLt_iff.mp h2 with hx | ⟨hee2, _, _⟩
              · rw [valLt_asymm h] at hx
                exact Bool.false_ne_true hx
              · exact valLt_ne h hee2.symm
            · rcases upperLt_iff.mp h2 with hx | ⟨_, _, hoi2⟩
              · rw [hee, valLt_irrefl] at hx
                exact Bool.false_ne_true hx
              · rw [hoi] at hoi2
                exact Bool.false_ne_true hoi2
        simp [hup]
      have : orRaw s o = .rng s := by
        simp [orRaw, hb]
      rw [this]
      have hspec : specUnion s o = s := by
        simp [specUnion, hlowmin, hupmax]
      rw [hspec]

/-- C2 counterexample: for the open range `A = (0, 5)` taken twice,
`will_join(A, A)` is false, yet `A | A` is the bare Range A via the
containment shortcut — not a two-member RangeSet containing A and B. -/
theorem C2_counterexample :
    Range.will_join ⟨.fin 0, .fin 5, false, false⟩ ⟨.fin 0, .fin 5, false, false⟩ = false ∧
    orOp ⟨.fin 0, .fin 5, false, false⟩ ⟨.fin 0, .fin 5, false, false⟩ =
      .rng ⟨.fin 0, .fin 5, false, false⟩ ∧
    (∀ x y : Range, RResult.rng ⟨.fin 0, .fin 5, false, false⟩ ≠ .rset [x, y]) := by
  refine ⟨by decide, by decide, fun x y => ?_⟩
  intro h
  exact absurd h (by simp)

/-- C2 (amended): for Ranges A, B each denoting a nonempty non-degenerate
interval (start strictly below end) — if A and B are distinct and
`will_join(A, B)` is false, A | B is the two-member RangeSet containing
exactly A and B (in key order); if `will_join(A, B)` holds and not both
ends are the INF sentinel with differing inclusivity, A | B is the single
Range from min(start) to max(end) with each bound's inclusivity taken from
the range supplying that extreme bound (the more inclusive flag at value
ties). -/
theorem C2_amended (a b : Range)
    (hpa : valLt a.start a.end_ = true) (hpb : valLt b.start b.end_ = true) :
    (a ≠ b → Range.will_join a b = false →
      orOp a b = (if Range.cmpLt a b then .rset [a, b] else .rset [b, a])) ∧
    (Range.will_join a b = true →
      ¬(a.end_ = .inf ∧ b.end_ = .inf ∧ a.end_inc ≠ b.end_inc) →
      orOp a b = .rng (specUnion a b)) := by
  cases hba : Range.cmpLt b a
  · have h := orRaw_spec hpa hpb hba
    have e1 : orOp a b = orRaw a b := by
      simp [orOp, ensureOrder, hba]
    have e2 : Range.will_join a b = will_joinRaw a b := by
      simp [Range.will_join, ensureOrder, hba]
    constructor
    · intro hne hwjf
      rw [e2] at hwjf
      have hab : Range.cmpLt a b = true := cmpLt_of_ne hne hba
      rw [e1, hab, h.1 hne hwjf]
      simp
    · intro hwjt hinf
      rw [e2] at hwjt
      rw [e1, h.2 hwjt hinf]
  · have hab : Range.cmpLt a b = false := cmpLt_asymm hba
    have h := orRaw_spec hpb hpa hab
    have e1 : orOp a b = orRaw b a := by
      simp [orOp, ensureOrder, hba]
    have e2 : Range.will_join a b = will_joinRaw b a := by
      simp [Range.will_join, ensureOrder, hba]
    constructor
    · intro hne hwjf
      rw [e2] at hwjf
      rw [e1, hab, h.1 (Ne.symm hne) hwjf]
      simp
    · intro hwjt hinf
      rw [e2] at hwjt
      rw [e1, specUnion_comm a b,
        h.2 hwjt (fun hx => hinf ⟨hx.2.1, hx.1, (hx.2.2).symm⟩)]

/-- C2 amended witness: `Range(0,5) | Range(5,10)` joins into the single
Range `Range(0,10)` — the spec's concrete scenario 2. -/
theorem C2_amended_witness :
    Range.will_join ⟨.fin 0, .fin 5, true, false⟩ ⟨.fin 5, .fin 10, true, false⟩ = true ∧
    orOp ⟨.fin 0, .fin 5, true, false⟩ ⟨.fin 5, .fin 10, true, false⟩ =
      .rng ⟨.fin 0, .fin 10, true, false⟩ := by
  refine ⟨by decide, ?_⟩
  have h := (C2_amended ⟨.fin 0, .fin 5, true, false⟩ ⟨.fin 5, .fin 10, true, false⟩
    (by decide) (by decide)).2 (by decide) (by decide)
  rw [h]
  decide

theorem upperLt_of_ne {s o : Range} (hene : s.end_ ≠ o.end_) :
    upperLt s o = valLt s.end_ o.end_ := by
  cases hq : valLt s.end_ o.end_
  · cases h2 : upperLt s o
    · rfl
    · exfalso
      rcases upperLt_iff.mp h2 with h | ⟨hee, _, _⟩
      · rw [hq] at h
        exact Bool.false_ne_true h
      · exact hene hee
  · exact upperLt_iff.mpr (Or.inl hq)

/-- Ordered-pair body of the amended symmetric-difference claim: on a
strictly intersecting ordered pair of proper ranges with distinct starts
and distinct ends, `Range.__xor__` produces the two disjoint fragments of
its general case, kept as a two-member RangeSet by canonicalization. -/
theorem xorRaw_spec {s o : Range}
    (hps : valLt s.start s.end_ = true) (hpo : valLt o.start o.end_ = true)
    (hord : Range.cmpLt o s = false)
    (hsne : s.start ≠ o.start) (hene : s.end_ ≠ o.end_)
    (hwj : will_joinRaw s o = true) (hcont : continuesRaw s o = false) :
    xorRaw s o = .rset [⟨s.start, o.start, s.start_inc, !o.start_inc⟩,
      if upperLt s o = true then ⟨s.end_, o.end_, !s.end_inc, o.end_inc⟩
      else ⟨o.end_, s.end_, !o.end_inc, s.end_inc⟩] := by
  have hne : s ≠ o := fun h => hsne (congrArg Range.start h)
  have hcmp : Range.cmpLt s o = true := cmpLt_of_ne hne hord
  have hsso : valLt s.start o.start = true := by
    rcases cmpLt_iff.mp hcmp with h | ⟨hse, _⟩
    · exact h
    · exact absurd hse hsne
  have hint : intersectsRaw s o = true := by
    rw [intersectsRaw_eq hord, hwj, hcont]
    rfl
  have hio : Range.intersects s o = true := by
    simpa [Range.intersects, ensureOrder, hord] using hint
  have hkeq : keyEq s o = false := by
    cases h : keyEq s o
    · rfl
    · exact absurd (keyEq_iff.mp h) hne
  have hloweq : lowerEq s o = false := by
    simp [lowerEq, hsne]
  have hupeq : upperEq s o = false := by
    simp [upperEq, hene]
  have hcont' : ¬(s.end_inc ≠ o.start_inc ∧ s.end_ = o.start) := by
    rw [← continuesRaw_iff]
    simp [hcont]
  have hD : valLt o.start s.end_ = true ∨
      (o.start = s.end_ ∧ s.end_inc = true ∧ o.start_inc = true) := by
    rcases will_joinRaw_iff.mp hwj with hc | hc
    · rcases contains_iff.mp hc with ⟨_, h2⟩ | ⟨h1, _⟩ | ⟨h1, h2⟩
      · exact Or.inl h2
      · exact absurd h1 hsne
      · have hoi : o.start_inc = true := by
          cases hq : o.start_inc
          · exfalso
            refine hcont' ⟨?_, h1⟩
            rw [h2, hq]
            simp
          · rfl
        exact Or.inr ⟨h1.symm, h2, hoi⟩
    · rcases contains_iff.mp hc with ⟨h1, _⟩ | ⟨h1, h2⟩ | ⟨h1, _⟩
      · exact Or.inl h1
      · have hsi : s.end_inc = true := by
          cases hq : s.end_inc
          · exfalso
            refine hcont' ⟨?_, h1.symm⟩
            rw [h2, hq]
            simp
          · rfl
        exact Or.inr ⟨h1, hsi, h2⟩
      · exact absurd h1.symm hene
  cases hup : upperLt s o
  · have hoes : valLt o.end_ s.end_ = true := by
      have h1 : valLt s.end_ o.end_ = false := by
        rw [← upperLt_of_ne hene]
        exact hup
      rcases valLt_flip h1 with h | h
      · exact absurd h hene
      · exact h
    have hr12 : Range.cmpLt ⟨s.start, o.start, s.start_inc, !o.start_inc⟩
        ⟨o.end_, s.end_, !o.end_inc, s.end_inc⟩ = true := by
      rw [cmpLt_iff]
      exact Or.inl (valLt_trans hsso hpo)
    have hr21 := cmpLt_asymm hr12
    have hwj12 : Range.will_join ⟨s.start, o.start, s.start_inc, !o.start_inc⟩
        ⟨o.end_, s.end_, !o.end_inc, s.end_inc⟩ = false := by
      rw [will_join_eq_raw hr21, Bool.eq_false_iff]
      intro hw
      rcases will_joinRaw_iff.mp hw with hc | hc
      · have hc2 := contains_iff.mp hc
        dsimp only at hc2
        rcases hc2 with ⟨_, h2⟩ | ⟨h1, _⟩ | ⟨h1, _⟩
        · rw [valLt_asymm hpo] at h2
          exact Bool.false_ne_true h2
        · have hx : valLt o.start s.start = true := by
            rw [h1]
            exact hpo
          rw [valLt_asymm hsso] at hx
          exact Bool.false_ne_true hx
        · rw [h1, valLt_irrefl] at hpo
          exact Bool.false_ne_true hpo
      · have hc2 := contains_iff.mp hc
        dsimp only at hc2
        rcases hc2 with ⟨h1, _⟩ | ⟨h1, _⟩ | ⟨h1, _⟩
        · rw [valLt_asymm hpo] at h1
          exact Bool.false_ne_true h1
        · rw [h1, valLt_irrefl] at hpo
          exact Bool.false_ne_true hpo
        · rw [h1] at hoes
          rw [valLt_asymm hpo] at hoes
          exact Bool.false_ne_true hoes
    have hsort : sortRanges [(⟨s.start, o.start, s.start_inc, !o.start_inc⟩ : Range),
        ⟨o.end_, s.end_, !o.end_inc, s.end_inc⟩] =
        [⟨s.start, o.start, s.start_inc, !o.start_inc⟩,
         ⟨o.end_, s.end_, !o.end_inc, s.end_inc⟩] := by
      simp [sortRanges, insortRange, hr21]
    have hcanon : canonList [(⟨s.start, o.start, s.start_inc, !o.start_inc⟩ : Range),
        ⟨o.end_, s.end_, !o.end_inc, s.end_inc⟩] =
        [⟨s.start, o.start, s.start_inc, !o.start_inc⟩,
         ⟨o.end_, s.end_, !o.end_inc, s.end_inc⟩] := by
      simp [canonList, canonFold, hwj12]
    simp [xorRaw, hio, hkeq, hloweq, hupeq, hup, rangeSetMk, hsort, hcanon]
  · have hses : valLt s.end_ o.end_ = true := by
      rw [← upperLt_of_ne hene]
      exact hup
    have hr12 : Range.cmpLt ⟨s.start, o.start, s.start_inc, !o.start_inc⟩
        ⟨s.end_, o.end_, !s.end_inc, o.end_inc⟩ = true := by
      rw [cmpLt_iff]
      exact Or.inl hps
    have hr21 := cmpLt_asymm hr12
    have hwj12 : Range.will_join ⟨s.start, o.start, s.start_inc, !o.start_inc⟩
        ⟨s.end_, o.end_, !s.end_inc, o.end_inc⟩ = false := by
      rw [will_join_eq_raw hr21, Bool.eq_false_iff]
      intro hw
      rcases will_joinRaw_iff.mp hw with hc | hc
      · have hc2 := contains_iff.mp hc
        dsimp only at hc2
        rcases hc2 with ⟨_, h2⟩ | ⟨h1, _⟩ | ⟨h1, h2⟩
        · rcases hD with hd | ⟨hd1, _, _⟩
          · rw [valLt_asymm hd] at h2
            exact Bool.false_ne_true h2
          · rw [hd1, valLt_irrefl] at h2
            exact Bool.false_ne_true h2
        · rw [← h1, valLt_irrefl] at hps
          exact Bool.false_ne_true hps
        · rcases hD with hd | ⟨_, _, hd3⟩
          · rw [h1, valLt_irrefl] at hd
            exact Bool.false_ne_true hd
          · rw [hd3] at h2
            simp at h2
      · have hc2 := contains_iff.mp hc
        dsimp only at hc2
        rcases hc2 with ⟨h1, _⟩ | ⟨h1, h2⟩ | ⟨h1, _⟩
        · rcases hD with hd | ⟨hd1, _, _⟩
          · rw [valLt_asymm hd] at h1
            exact Bool.false_ne_true h1
          · rw [hd1, valLt_irrefl] at h1
            exact Bool.false_ne_true h1
        · rcases hD with hd | ⟨_, hd2, _⟩
          · rw [h1, valLt_irrefl] at hd
            exact Bool.false_ne_true hd
          · rw [hd2] at h2
            simp at h2
        · rw [h1, valLt_irrefl] at hpo
          exact Bool.false_ne_true hpo
    have hsort : sortRanges [(⟨s.start, o.start, s.start_inc, !o.start_inc⟩ : Range),
        ⟨s.end_, o.end_, !s.end_inc, o.end_inc⟩] =
        [⟨s.start, o.start, s.start_inc, !o.start_inc⟩,
         ⟨s.end_, o.end_, !s.end_inc, o.end_inc⟩] := by
      simp [sortRanges, insortRange, hr21]
    have hcanon : canonList [(⟨s.start, o.start, s.start_inc, !o.start_inc⟩ : Range),
        ⟨s.end_, o.end_, !s.end_inc, o.end_inc⟩] =
        [⟨s.start, o.start, s.start_inc, !o.start_inc⟩,
         ⟨s.end_, o.end_, !s.end_inc, o.end_inc⟩] := by
      simp [canonList, canonFold, hwj12]
    simp [xorRaw, hio, hkeq, hloweq, hupeq, hup, rangeSetMk, hsort, hcanon]

/-- C1 counterexample: A = Range(0,10) and the backwards range
B = Range(9,1) satisfy the claim's hypotheses — will_join(A,B) holds,
continues(A,B) does not, and the four bounds 0, 10, 9, 1 are pairwise
distinct — yet A ^ B is not a two-member RangeSet: the two fragments
[0,9) and [1,10) overlap, and canonicalization merges them into the
single-member RangeSet [Range(0,10)]. -/
theorem C1_counterexample :
    Range.will_join ⟨.fin 0, .fin 10, true, false⟩ ⟨.fin 9, .fin 1, true, false⟩ = true ∧
    Range.continues ⟨.fin 0, .fin 10, true, false⟩ ⟨.fin 9, .fin 1, true, false⟩ = false ∧
    xorOp ⟨.fin 0, .fin 10, true, false⟩ ⟨.fin 9, .fin 1, true, false⟩ =
      .rset [⟨.fin 0, .fin 10, true, false⟩] ∧
    (∀ x y : Range, RResult.rset [⟨.fin 0, .fin 10, true, false⟩] ≠ .rset [x, y]) := by
  refine ⟨by decide, by decide, by decide, fun x y => ?_⟩
  intro h
  have := congrArg (fun r => match r with | RResult.rset l => l.length | _ => 0) h
  simp at this

/-- C1 (amended): for Ranges A, B each denoting a nonempty non-degenerate
interval (start strictly below end), with distinct starts and distinct ends,
that strictly intersect (will_join holds, continues does not): A ^ B is the
two-member RangeSet whose left fragment runs from the earlier start to the
later start (keeping the earlier range's start-inclusivity, inverting the
later range's) and whose right fragment runs from the earlier end to the
later end (inverting the earlier-ending range's end-inclusivity, keeping
the later-ending range's), the roles for the right fragment being assigned
by end position. -/
theorem C1_amended (a b : Range)
    (hpa : valLt a.start a.end_ = true) (hpb : valLt b.start b.end_ = true)
    (hsne : a.start ≠ b.start) (hene : a.end_ ≠ b.end_)
    (hwj : Range.will_join a b = true) (hcont : Range.continues a b = false) :
    xorOp a b = .rset [specXorLeft a b, specXorRight a b] := by
  cases hba : Range.cmpLt b a
  · have e1 : xorOp a b = xorRaw a b := by
      simp [xorOp, ensureOrder, hba]
    have e2 : will_joinRaw a b = true := by
      rw [← will_join_eq_raw hba]
      exact hwj
    have e3 : continuesRaw a b = false := by
      rw [← continues_eq_raw hba]
      exact hcont
    have h := xorRaw_spec hpa hpb hba hsne hene e2 e3
    rw [e1, h]
    have hsab : valLt a.start b.start = true := by
      have hne : a ≠ b := fun hx => hsne (congrArg Range.start hx)
      rcases cmpLt_iff.mp (cmpLt_of_ne hne hba) with hx | ⟨hse, _⟩
      · exact hx
      · exact absurd hse hsne
    have hl : specXorLeft a b = ⟨a.start, b.start, a.start_inc, !b.start_inc⟩ := by
      simp [specXorLeft, hsab]
    have hr : specXorRight a b = (if upperLt a b = true
        then ⟨a.end_, b.end_, !a.end_inc, b.end_inc⟩
        else (⟨b.end_, a.end_, !b.end_inc, a.end_inc⟩ : Range)) := by
      rw [upperLt_of_ne hene]
      simp [specXorRight]
    rw [hl, hr]
  · have hab : Range.cmpLt a b = false := cmpLt_asymm hba
    have e1 : xorOp a b = xorRaw b a := by
      simp [xorOp, ensureOrder, hba]
    have e2 : will_joinRaw b a = true := by
      have hx : Range.will_join a b = will_joinRaw b a := by
        simp [Range.will_join, ensureOrder, hba]
      rw [← hx]
      exact hwj
    have e3 : continuesRaw b a = false := by
      have hx : Range.continues a b = continuesRaw b a := by
        simp [Range.continues, ensureOrder, hba]
      rw [← hx]
      exact hcont
    have h := xorRaw_spec hpb hpa hab (Ne.symm hsne) (Ne.symm hene) e2 e3
    rw [e1, h]
    have hbsa : valLt b.start a.start = true := by
      have hne : b ≠ a := fun hx => hsne (congrArg Range.start hx).symm
      rcases cmpLt_iff.mp (cmpLt_of_ne hne hab) with hx | ⟨hse, _⟩
      · exact hx
      · exact absurd hse (Ne.symm hsne)
    have hl : specXorLeft a b = ⟨b.start, a.start, b.start_inc, !a.start_inc⟩ := by
      have hx : valLt a.start b.start = false := valLt_asymm hbsa
      simp [specXorLeft, hx]
    have hr : specXorRight a b = (if upperLt b a = true
        then ⟨b.end_, a.end_, !b.end_inc, a.end_inc⟩
        else (⟨a.end_, b.end_, !a.end_inc, b.end_inc⟩ : Range)) := by
      rw [upperLt_of_ne (Ne.symm hene)]
      cases hq : valLt b.end_ a.end_
      · have h2 : valLt a.end_ b.end_ = true := by
          rcases valLt_flip hq with hx | hx
          · exact absurd hx (Ne.symm hene)
          · exact hx
        simp [specXorRight, h2, hq]
      · have h2 : valLt a.end_ b.end_ = false := valLt_asymm hq
        simp [specXorRight, h2, hq]
    rw [hl, hr]

/-- C1 amended witness: `Range(0,5) ^ Range(3,8)` is the RangeSet
containing `Range(0,3)` and `Range(5,8)` — the spec's concrete
scenario 3. -/
theorem C1_amended_witness :
    Range.will_join ⟨.fin 0, .fin 5, true, false⟩ ⟨.fin 3, .fin 8, true, false⟩ = true ∧
    Range.continues ⟨.fin 0, .fin 5, true, false⟩ ⟨.fin 3, .fin 8, true, false⟩ = false ∧
    xorOp ⟨.fin 0, .fin 5, true, false⟩ ⟨.fin 3, .fin 8, true, false⟩ =
      .rset [⟨.fin 0, .fin 3, true, false⟩, ⟨.fin 5, .fin 8, true, false⟩] := by
  refine ⟨by decide, by decide, ?_⟩
  have h := C1_amended ⟨.fin 0, .fin 5, true, false⟩ ⟨.fin 3, .fin 8, true, false⟩
    (by decide) (by decide) (by decide) (by decide) (by decide) (by decide)
  rw [h]
  decide

theorem BIG_start : BIG_RANGE.start = .ninf := rfl

theorem BIG_end : BIG_RANGE.end_ = .inf := rfl

theorem BIG_si : BIG_RANGE.start_inc = true := rfl

theorem BIG_ei : BIG_RANGE.end_inc = false := rfl

/-- C4 counterexample: the zero-width range A = Range(5,5,False,True) is
bounded (both endpoints are the finite value 5), yet ~A is not a two-member
RangeSet: the two fragments [-inf,5] and (5,inf) produced by the case
analysis will_join, and canonicalization merges them into the single-member
RangeSet [BIG_RANGE]. -/
theorem C4_counterexample :
    Range.invert ⟨.fin 5, .fin 5, false, true⟩ = .rset [BIG_RANGE] ∧
    (∀ x y : Range, RResult.rset [BIG_RANGE] ≠ .rset [x, y]) := by
  refine ⟨by decide, fun x y => ?_⟩
  intro h
  have := congrArg (fun r => match r with | RResult.rset l => l.length | _ => 0) h
  simp at this

/-- C4 (amended): the complement ~A is by definition `BIG_RANGE ^ A`, the
symmetric difference with the universal range `Range()` (both endpoints the
unbounded sentinels, default flags).  For a bounded A denoting a nonempty
set (start strictly below end, or a one-point range with both bounds
inclusive), ~A is the two-member RangeSet of everything below and
everything above A.  For a one-sided-unbounded A whose sentinel bound
carries the default flag (inclusive for a `-INF` start, exclusive for an
`INF` end), ~A is a single Range. -/
theorem C4_amended (a : Range) :
    (Range.invert a = xorOp BIG_RANGE a) ∧
    (a.start.isFin = true → a.end_.isFin = true →
      (valLt a.start a.end_ = true ∨
        (a.start = a.end_ ∧ a.start_inc = true ∧ a.end_inc = true)) →
      Range.invert a = .rset [⟨.ninf, a.start, true, !a.start_inc⟩,
        ⟨a.end_, .inf, !a.end_inc, false⟩]) ∧
    (a.start = .ninf → a.start_inc = true → a.end_.isFin = true →
      Range.invert a = .rng ⟨a.end_, .inf, !a.end_inc, false⟩) ∧
    (a.end_ = .inf → a.end_inc = false → a.start.isFin = true →
      Range.invert a = .rng ⟨.ninf, a.start, true, !a.start_inc⟩) := by
  refine ⟨rfl, ?_, ?_, ?_⟩
  · intro hsf hef hprop
    obtain ⟨s, hs⟩ : ∃ s, a.start = .fin s := by
      cases h : a.start
      · rw [h] at hsf
        exact absurd hsf (by simp [Val.isFin])
      · exact ⟨_, rfl⟩
      · rw [h] at hsf
        exact absurd hsf (by simp [Val.isFin])
    obtain ⟨e, he⟩ : ∃ e, a.end_ = .fin e := by
      cases h : a.end_
      · rw [h] at hef
        exact absurd hef (by simp [Val.isFin])
      · exact ⟨_, rfl⟩
      · rw [h] at hef
        exact absurd hef (by simp [Val.isFin])
    have hba : Range.cmpLt a BIG_RANGE = false := by
      simp [Range.cmpLt, BIG_start, hs, valLt]
    have hwj : Range.will_join BIG_RANGE a = true := by
      simp [Range.will_join, ensureOrder, hba, will_joinRaw, Range.contains,
        BIG_start, BIG_end, hs, valLt]
    have hct : Range.continues BIG_RANGE a = false := by
      simp [Range.continues, ensureOrder, hba, continuesRaw, BIG_end, BIG_ei, hs]
    have hio : Range.intersects BIG_RANGE a = true := by
      simp [Range.intersects, ensureOrder, hba, intersectsRaw, hwj, hct]
    have hkeq : keyEq BIG_RANGE a = false := by
      simp [keyEq, BIG_start, hs]
    have hloweq : lowerEq BIG_RANGE a = false := by
      simp [lowerEq, BIG_start, hs]
    have hupeq : upperEq BIG_RANGE a = false := by
      simp [upperEq, BIG_end, he]
    have hup : upperLt BIG_RANGE a = false := by
      simp [upperLt, BIG_end, he, valLt, boolLt]
    have hr12 : Range.cmpLt ⟨.ninf, a.start, true, !a.start_inc⟩
        ⟨a.end_, .inf, !a.end_inc, false⟩ = true := by
      rw [cmpLt_iff]
      refine Or.inl ?_
      dsimp only
      rw [he]
      simp [valLt]
    have hr21 := cmpLt_asymm hr12
    have hnse : ¬(a.start = a.end_ ∧ (a.start_inc = false ∨ a.end_inc = false)) := by
      rintro ⟨h1, h2⟩
      rcases hprop with h | ⟨_, h3, h4⟩
      · rw [h1, valLt_irrefl] at h
        exact Bool.false_ne_true h
      · rcases h2 with h2 | h2
        · rw [h3] at h2
          exact Bool.false_ne_true h2.symm
        · rw [h4] at h2
          exact Bool.false_ne_true h2.symm
    have hsne : valLt a.end_ a.start = false := by
      cases hq : valLt a.end_ a.start
      · rfl
      · exfalso
        rcases hprop with h | ⟨h1, _, _⟩
        · rw [valLt_asymm h] at hq
          exact Bool.false_ne_true hq
        · rw [h1, valLt_irrefl] at hq
          exact Bool.false_ne_true hq
    have hwj12 : Range.will_join ⟨.ninf, a.start, true, !a.start_inc⟩
        ⟨a.end_, .inf, !a.end_inc, false⟩ = false := by
      rw [will_join_eq_raw hr21, Bool.eq_false_iff]
      intro hw
      rcases will_joinRaw_iff.mp hw with hc | hc
      · have hc2 := contains_iff.mp hc
        dsimp only at hc2
        rcases hc2 with ⟨_, h2⟩ | ⟨h1, _⟩ | ⟨h1, h2⟩
        · rw [hsne] at h2
          exact Bool.false_ne_true h2
        · rw [he] at h1
          exact absurd h1 (by simp)
        · refine hnse ⟨h1, Or.inl ?_⟩
          cases hq : a.start_inc
          · rfl
          · rw [hq] at h2
            simp at h2
      · have hc2 := contains_iff.mp hc
        dsimp only at hc2
        rcases hc2 with ⟨h1, _⟩ | ⟨h1, h2⟩ | ⟨h1, _⟩
        · rw [hsne] at h1
          exact Bool.false_ne_true h1
        · refine hnse ⟨h1.symm, Or.inr ?_⟩
          cases hq : a.end_inc
          · rfl
          · rw [hq] at h2
            simp at h2
        · rw [hs] at h1
          exact absurd h1 (by simp)
    have hsort : sortRanges [(⟨.ninf, a.start, true, !a.start_inc⟩ : Range),
        ⟨a.end_, .inf, !a.end_inc, false⟩] =
        [⟨.ninf, a.start, true, !a.start_inc⟩, ⟨a.end_, .inf, !a.end_inc, false⟩] := by
      simp [sortRanges, insortRange, hr21]
    have hcanon : canonList [(⟨.ninf, a.start, true, !a.start_inc⟩ : Range),
        ⟨a.end_, .inf, !a.end_inc, false⟩] =
        [⟨.ninf, a.start, true, !a.start_inc⟩, ⟨a.end_, .inf, !a.end_inc, false⟩] := by
      simp [canonList, canonFold, hwj12]
    show xorOp BIG_RANGE a = _
    have e1 : xorOp BIG_RANGE a = xorRaw BIG_RANGE a := by
      simp [xorOp, ensureOrder, hba]
    rw [e1]
    simp [xorRaw, hio, hkeq, hloweq, hupeq, hup, rangeSetMk, hsort, hcanon, BIG_start, BIG_si, BIG_end, BIG_ei]
  · intro hs hsi hef
    obtain ⟨e, he⟩ : ∃ e, a.end_ = .fin e := by
      cases h : a.end_
      · rw [h] at hef
        exact absurd hef (by simp [Val.isFin])
      · exact ⟨_, rfl⟩
      · rw [h] at hef
        exact absurd hef (by simp [Val.isFin])
    have hab : Range.cmpLt a BIG_RANGE = true := by
      simp [Range.cmpLt, BIG_start, BIG_end, BIG_si, hs, hsi, he, valLt, boolLt]
    have hba : Range.cmpLt BIG_RANGE a = false := cmpLt_asymm hab
    have e1 : xorOp BIG_RANGE a = xorRaw a BIG_RANGE := by
      simp [xorOp, ensureOrder, hab]
    have hwj : Range.will_join a BIG_RANGE = true := by
      simp [Range.will_join, ensureOrder, hba, will_joinRaw, Range.contains,
        BIG_start, BIG_end, hs, hsi]
    have hct : Range.continues a BIG_RANGE = false := by
      simp [Range.continues, ensureOrder, hba, continuesRaw, BIG_start, he]
    have hio : Range.intersects a BIG_RANGE = true := by
      simp [Range.intersects, ensureOrder, hba, intersectsRaw, hwj, hct]
    have hkeq : keyEq a BIG_RANGE = false := by
      simp [keyEq, BIG_end, he]
    have hloweq : lowerEq a BIG_RANGE = true := by
      simp [lowerEq, BIG_start, BIG_si, hs, hsi]
    show xorOp BIG_RANGE a = _
    rw [e1]
    simp [xorRaw, hio, hkeq, hloweq, BIG_end, BIG_ei]
  · intro he hei hsf
    obtain ⟨s, hs⟩ : ∃ s, a.start = .fin s := by
      cases h : a.start
      · rw [h] at hsf
        exact absurd hsf (by simp [Val.isFin])
      · exact ⟨_, rfl⟩
      · rw [h] at hsf
        exact absurd hsf (by simp [Val.isFin])
    have hba : Range.cmpLt a BIG_RANGE = false := by
      simp [Range.cmpLt, BIG_start, hs, valLt]
    have e1 : xorOp BIG_RANGE a = xorRaw BIG_RANGE a := by
      simp [xorOp, ensureOrder, hba]
    have hwj : Range.will_join BIG_RANGE a = true := by
      simp [Range.will_join, ensureOrder, hba, will_joinRaw, Range.contains,
        BIG_start, BIG_end, hs, valLt]
    have hct : Range.continues BIG_RANGE a = false := by
      simp [Range.continues, ensureOrder, hba, continuesRaw, BIG_end, BIG_ei, hs]
    have hio : Range.intersects BIG_RANGE a = true := by
      simp [Range.intersects, ensureOrder, hba, intersectsRaw, hwj, hct]
    have hkeq : keyEq BIG_RANGE a = false := by
      simp [keyEq, BIG_start, hs]
    have hloweq : lowerEq BIG_RANGE a = false := by
      simp [lowerEq, BIG_start, hs]
    have hupeq : upperEq BIG_RANGE a = true := by
      simp [upperEq, BIG_end, BIG_ei, he, hei]
    show xorOp BIG_RANGE a = _
    rw [e1]
    simp [xorRaw, hio, hkeq, hloweq, hupeq, BIG_start, BIG_si]

/-- C4 amended witness: `~Range(2,7)` is the RangeSet containing
`Range(-inf,2)` and `Range(7,inf)` — the spec's concrete scenario 4. -/
theorem C4_amended_witness :
    Range.invert ⟨.fin 2, .fin 7, true, false⟩ =
      .rset [⟨.ninf, .fin 2, true, false⟩, ⟨.fin 7, .inf, true, false⟩] := by
  have h := (C4_amended ⟨.fin 2, .fin 7, true, false⟩).2.1
    (by decide) (by decide) (by decide)
  rw [h]
  decide
